import Mathlib

/-!
Verification development for the quickhull library (src/src/lib.rs).

The sign decisions of the library all go through `robust::orient3d`, an exact-sign
adaptive-precision orientation predicate, so the algorithm is embedded here
over exact rational arithmetic: 3D points have rational coordinates and the
orientation predicate is the exact 3x3 determinant.  The two places where the
Rust code computes with normalized (unit) vectors — the third- and
fourth-vertex selection loops of `init_tetrahedron_indices` — only ever
compare non-negative magnitudes against each other and against zero; the
embedding carries the exact squared magnitudes instead (the positive constant
denominators are kept), which yields the identical control flow in exact
arithmetic.

Deterministic orderings chosen for the containers whose iteration order the
Rust code leaves to `HashSet` (everything else — `BTreeMap`, `Vec` — is
already deterministic and mirrored exactly):
 * the face map is an association list kept sorted by key (BTreeMap order);
 * the assigned-point set is an insertion-ordered duplicate-free list;
 * the visible set is kept in DFS discovery order;
 * set deduplication keeps first occurrences;
 * a ridge lists the deduplicated indices of the unvisible face in order,
   filtered by membership in the indices of the visible face.

Rust panics (out-of-bounds indexing, `unwrap` of `None`) and exhaustion of
the explicit recursion fuel are both modelled by the `Fail.panic` outcome,
distinct from every `ErrorKind` the library can return.
-/

/-!
Rational arithmetic.  The arithmetic of `ℚ` that ships with the system does
not reduce inside the proof kernel, so the embedding computes with the
following `mkRat`-based operations; the bridge lemmas right below each one
identify it with the corresponding standard operation on `ℚ`, and all
statements and algebraic proofs use the standard operations.
-/

/-- Kernel-computable addition on `ℚ`. -/
def qadd (a b : ℚ) : ℚ := mkRat (a.num * b.den + b.num * a.den) (a.den * b.den)

/-- Kernel-computable subtraction on `ℚ`. -/
def qsub (a b : ℚ) : ℚ := mkRat (a.num * b.den - b.num * a.den) (a.den * b.den)

/-- Kernel-computable multiplication on `ℚ`. -/
def qmul (a b : ℚ) : ℚ := mkRat (a.num * b.num) (a.den * b.den)

/-- Kernel-computable negation on `ℚ`. -/
def qneg (a : ℚ) : ℚ := mkRat (-a.num) a.den

/-- Kernel-computable inverse on `ℚ`. -/
def qinv (a : ℚ) : ℚ :=
  if 0 ≤ a.num then mkRat (a.den : ℤ) a.num.toNat
  else mkRat (-(a.den : ℤ)) (-a.num).toNat

/-- Kernel-computable division on `ℚ`. -/
def qdiv (a b : ℚ) : ℚ := qmul a (qinv b)

/-- Kernel-computable strict comparison on `ℚ`. -/
def qlt (a b : ℚ) : Bool := a.num * (b.den : ℤ) < b.num * (a.den : ℤ)

/-- Kernel-computable non-strict comparison on `ℚ`. -/
def qle (a b : ℚ) : Bool := a.num * (b.den : ℤ) ≤ b.num * (a.den : ℤ)

theorem den_int_ne {a : ℚ} : ((a.den : ℤ)) ≠ 0 := Int.natCast_ne_zero.mpr a.den_nz

theorem den_int_pos {a : ℚ} : (0 : ℤ) < (a.den : ℤ) := Int.natCast_pos.mpr a.pos

theorem qadd_eq (a b : ℚ) : qadd a b = a + b := by
  rw [qadd, Rat.mkRat_eq_divInt]
  conv_rhs => rw [← Rat.num_divInt_den a, ← Rat.num_divInt_den b]
  rw [Rat.divInt_add_divInt _ _ (den_int_ne (a := a)) (den_int_ne (a := b))]
  push_cast
  ring_nf

theorem qsub_eq (a b : ℚ) : qsub a b = a - b := by
  rw [qsub, Rat.mkRat_eq_divInt]
  conv_rhs => rw [← Rat.num_divInt_den a, ← Rat.num_divInt_den b]
  rw [Rat.divInt_sub_divInt _ _ (den_int_ne (a := a)) (den_int_ne (a := b))]
  push_cast
  ring_nf

theorem qmul_eq (a b : ℚ) : qmul a b = a * b := by
  rw [qmul, Rat.mkRat_eq_divInt]
  conv_rhs => rw [← Rat.num_divInt_den a, ← Rat.num_divInt_den b]
  rw [Rat.divInt_mul_divInt']
  push_cast
  ring_nf

theorem qneg_eq (a : ℚ) : qneg a = -a := by
  rw [qneg, Rat.mkRat_eq_divInt, Rat.neg_def]

theorem qinv_eq (a : ℚ) : qinv a = a⁻¹ := by
  rw [Rat.inv_def' a, qinv]
  split
  · rw [Rat.mkRat_eq_divInt]
    congr 1
    omega
  · rw [Rat.mkRat_eq_divInt]
    rw [show ((-a.num).toNat : ℤ) = -a.num by omega]
    rw [Rat.divInt_neg, neg_neg]

theorem qdiv_eq (a b : ℚ) : qdiv a b = a / b := by
  rw [qdiv, qmul_eq, qinv_eq, div_eq_mul_inv]

theorem qlt_iff (a b : ℚ) : qlt a b = true ↔ a < b := by
  rw [qlt, decide_eq_true_eq]
  constructor
  · intro h
    have := (Rat.divInt_le_divInt (den_int_pos (a := b)) (den_int_pos (a := a))).not.mpr
      (not_le.mpr h)
    rw [Rat.num_divInt_den, Rat.num_divInt_den] at this
    exact not_le.mp this
  · intro h
    by_contra hc
    have hba : b.num * (a.den : ℤ) ≤ a.num * (b.den : ℤ) := not_lt.mp hc
    have := (Rat.divInt_le_divInt (den_int_pos (a := b)) (den_int_pos (a := a))).mpr hba
    rw [Rat.num_divInt_den, Rat.num_divInt_den] at this
    exact absurd h (not_lt.mpr this)

theorem qle_iff (a b : ℚ) : qle a b = true ↔ a ≤ b := by
  rw [qle, decide_eq_true_eq]
  rw [← Rat.divInt_le_divInt (den_int_pos (a := a)) (den_int_pos (a := b)),
    Rat.num_divInt_den, Rat.num_divInt_den]

/-- A 3D vector with rational coordinates (exact model of `glam::DVec3`). -/
structure Vec3 where
  x : ℚ
  y : ℚ
  z : ℚ
deriving DecidableEq

def Vec3.sub (a b : Vec3) : Vec3 := ⟨qsub a.x b.x, qsub a.y b.y, qsub a.z b.z⟩

def Vec3.add (a b : Vec3) : Vec3 := ⟨qadd a.x b.x, qadd a.y b.y, qadd a.z b.z⟩

def Vec3.smul (t : ℚ) (a : Vec3) : Vec3 := ⟨qmul t a.x, qmul t a.y, qmul t a.z⟩

def Vec3.dot (a b : Vec3) : ℚ := qadd (qadd (qmul a.x b.x) (qmul a.y b.y)) (qmul a.z b.z)

def Vec3.cross (a b : Vec3) : Vec3 :=
  ⟨qsub (qmul a.y b.z) (qmul a.z b.y), qsub (qmul a.z b.x) (qmul a.x b.z),
   qsub (qmul a.x b.y) (qmul a.y b.x)⟩

def Vec3.lengthSq (a : Vec3) : ℚ := a.dot a

def Vec3.neg (a : Vec3) : Vec3 := ⟨qneg a.x, qneg a.y, qneg a.z⟩

def Vec3.zero : Vec3 := ⟨0, 0, 0⟩

/-- Point lookup.  Rust indexing panics out of bounds; the embedding
totalizes with a zero default and the concrete executions it is applied to
stay in bounds. -/
def getPt (points : List Vec3) (i : ℕ) : Vec3 := points.getD i Vec3.zero

/-- The un-normalized triangle normal `(b - a) × (c - a)` (`triangle_normal`). -/
def triangleNormal (a b c : Vec3) : Vec3 := (b.sub a).cross (c.sub a)

/-- Exact value of `robust::orient3d(a, b, c, d)`: the determinant with rows
`a - d`, `b - d`, `c - d`. -/
def orient3d (a b c d : Vec3) : ℚ := (a.sub d).dot ((b.sub d).cross (c.sub d))

/-- A face of the hull (`Face`).  `outsidePoints` is the conflict list of
`(point index, signed position)` pairs. -/
structure Face where
  indices : List ℕ
  outsidePoints : List (ℕ × ℚ)
  neighborFaces : List ℕ
  normal : Vec3
  distanceFromOrigin : ℚ
deriving DecidableEq

/-- `Face::from_triangle`. -/
def Face.fromTriangle (points : List Vec3) (i0 i1 i2 : ℕ) : Face :=
  let a := getPt points i0
  let n := triangleNormal a (getPt points i1) (getPt points i2)
  { indices := [i0, i1, i2]
    outsidePoints := []
    neighborFaces := []
    normal := n
    distanceFromOrigin := n.dot a }

/-- `position_from_face`: minus the exact orientation determinant of the
three indexed vertices of the face and the queried point. -/
def positionFromFace (points : List Vec3) (face : Face) (i : ℕ) : ℚ :=
  qneg (orient3d (getPt points (face.indices.getD 0 0)) (getPt points (face.indices.getD 1 0))
      (getPt points (face.indices.getD 2 0)) (getPt points i))

/-- The same signed position evaluated at a query point given by value
rather than by index (used to state containment of an input point). -/
def positionFromFaceAt (points : List Vec3) (face : Face) (q : Vec3) : ℚ :=
  qneg (orient3d (getPt points (face.indices.getD 0 0)) (getPt points (face.indices.getD 1 0))
      (getPt points (face.indices.getD 2 0)) q)

/-- The kind of degeneracy (`DegenerateInput`). -/
inductive DegenerateInput where
  | coincident
  | collinear
  | coplanar
deriving DecidableEq

/-- Tags standing for the static string payloads of `RoundOffError`, in
source order of the corresponding error return sites. -/
inductive RoundOffMsg where
  /-- The initial-simplex message: number of face vertices should be 3. -/
  | faceVertices
  /-- The message: number of new face vertices should be 3. -/
  | newFaceVertices
  /-- The message: number of new faces should be greater than 3. -/
  | newFaceCount
  /-- The message: number of neighbors should be 3. -/
  | neighborCount
  /-- The message: number of visible face vertices should be 3. -/
  | visibleVertices
  /-- The message: number of unvisible face vertices should be 3. -/
  | unvisibleVertices
  /-- The message: number of ridge vertices should be 2. -/
  | ridgeVertices
  /-- The message: horizon length below 3. -/
  | horizonLen
  /-- The message: concave. -/
  | concave
deriving DecidableEq

/-- The error enum of the library (`ErrorKind`). -/
inductive ErrorKind where
  | empty
  | degenerated
  | degenerateInput (kind : DegenerateInput)
  | roundOffError (msg : RoundOffMsg)
deriving DecidableEq

/-- A computation outcome distinguishing the returned library errors from
Rust panics (and from exhaustion of the recursion fuel of the model). -/
inductive Fail where
  | panic
  | err (e : ErrorKind)
deriving DecidableEq

/-- Result monad of the embedding. -/
abbrev M (α : Type) : Type := Except Fail α

def ofOption {α : Type} : Option α → M α
  | some a => .ok a
  | none => .error .panic

/-- The convex hull record (`ConvexHull`): the point array and the face map,
the latter as a key-sorted association list (`BTreeMap<usize, Face>`). -/
structure ConvexHull where
  points : List Vec3
  faces : List (ℕ × Face)
deriving DecidableEq

/-- `BTreeMap::get`. -/
def facesFind (fs : List (ℕ × Face)) (k : ℕ) : Option Face :=
  (fs.find? (fun p => p.1 == k)).map (fun p => p.2)

/-- In-place modification of the entry at key `k` (`get_mut` followed by a
mutation). -/
def facesModify (fs : List (ℕ × Face)) (k : ℕ) (g : Face → Face) : List (ℕ × Face) :=
  fs.map (fun p => if p.1 = k then (p.1, g p.2) else p)

/-- `BTreeMap::insert`, keeping the list sorted by key. -/
def facesInsert (fs : List (ℕ × Face)) (k : ℕ) (f : Face) : List (ℕ × Face) :=
  match fs with
  | [] => [(k, f)]
  | p :: rest =>
    if k < p.1 then (k, f) :: p :: rest
    else if k = p.1 then (k, f) :: rest
    else p :: facesInsert rest k f

/-- `BTreeMap::remove`. -/
def facesErase (fs : List (ℕ × Face)) (k : ℕ) : List (ℕ × Face) :=
  fs.filter (fun p => p.1 != k)

/-- Insert into an insertion-ordered duplicate-free list (`HashSet::insert`
with the deterministic iteration order of the model). -/
def insertNew (xs : List ℕ) (x : ℕ) : List ℕ := if x ∈ xs then xs else xs ++ [x]

/-- First-occurrence deduplication (building a `HashSet` from a list). -/
def dedupKeepFirst (xs : List ℕ) : List ℕ := xs.foldl insertNew []

/-- State of a `compute_extremes` scan: running minimum and maximum corner
and the six extreme vertex indices. -/
structure ExtState where
  minv : Vec3
  maxv : Vec3
  minX : ℕ
  minY : ℕ
  minZ : ℕ
  maxX : ℕ
  maxY : ℕ
  maxZ : ℕ
deriving DecidableEq

/-- One step of `compute_extremes` (the per-point `if`/`else if` chains). -/
def extStep (s : ExtState) (ip : ℕ × Vec3) : ExtState :=
  let i := ip.1
  let vtx := ip.2
  let s1 :=
    if qlt vtx.x s.minv.x then { s with minv := { s.minv with x := vtx.x }, minX := i }
    else if qlt s.maxv.x vtx.x then { s with maxv := { s.maxv with x := vtx.x }, maxX := i }
    else s
  let s2 :=
    if qlt vtx.y s1.minv.y then { s1 with minv := { s1.minv with y := vtx.y }, minY := i }
    else if qlt s1.maxv.y vtx.y then { s1 with maxv := { s1.maxv with y := vtx.y }, maxY := i }
    else s1
  if qlt vtx.z s2.minv.z then { s2 with minv := { s2.minv with z := vtx.z }, minZ := i }
  else if qlt s2.maxv.z vtx.z then { s2 with maxv := { s2.maxv with z := vtx.z }, maxZ := i }
  else s2

/-- `ConvexHull::compute_extremes` (fold over the points, skipping index 0). -/
def computeExtremes (points : List Vec3) : ExtState :=
  (points.enum.drop 1).foldl extStep
    { minv := getPt points 0
      maxv := getPt points 0
      minX := 0, minY := 0, minZ := 0, maxX := 0, maxY := 0, maxZ := 0 }

/-- The extent along one axis recorded by a `compute_extremes` result. -/
def axisExtent (points : List Vec3) (e : ExtState) (axis : ℕ) : ℚ :=
  match axis with
  | 0 => qsub (getPt points e.maxX).x (getPt points e.minX).x
  | 1 => qsub (getPt points e.maxY).y (getPt points e.minY).y
  | _ => qsub (getPt points e.maxZ).z (getPt points e.minZ).z

/-- The `extent > max_extent` accumulator of `init_tetrahedron_indices`. -/
def pickLarger (cur : ℚ × ℕ) (ext : ℚ) (dim : ℕ) : ℚ × ℕ :=
  if qlt cur.1 ext then (ext, dim) else cur

/-- The maximum one-dimensional extent and its axis (the first loop of
`init_tetrahedron_indices`, unrolled over the three axes). -/
def maxExtentDim (points : List Vec3) (e : ExtState) : ℚ × ℕ :=
  pickLarger (pickLarger (pickLarger (0, 0) (axisExtent points e 0) 0)
    (axisExtent points e 1) 1) (axisExtent points e 2) 2

/-- Minimum vertex index along the given axis. -/
def minIdxOfDim (e : ExtState) (dim : ℕ) : ℕ :=
  match dim with
  | 0 => e.minX
  | 1 => e.minY
  | _ => e.minZ

/-- Maximum vertex index along the given axis. -/
def maxIdxOfDim (e : ExtState) (dim : ℕ) : ℕ :=
  match dim with
  | 0 => e.maxX
  | 1 => e.maxY
  | _ => e.maxZ

/-- Third-vertex selection of `init_tetrahedron_indices`: the point whose
distance from the line through vertices `i0`, `i1` is maximal, excluding
points coinciding with either endpoint.  The Rust code compares
`|û × (p - p0)|²` with `û = (p1 - p0)/|p1 - p0|`; the embedding carries the
exact rational value `|(p1 - p0) × (p - p0)|² / |p1 - p0|²`, which is that
same quantity. -/
def selectThird (points : List Vec3) (i0 i1 : ℕ) : ℚ × ℕ :=
  let d01 := (getPt points i1).sub (getPt points i0)
  (List.range points.length).foldl
    (fun acc i =>
      let diff := (getPt points i).sub (getPt points i0)
      let c := d01.cross diff
      let dsq := qdiv c.lengthSq d01.lengthSq
      if qlt acc.1 dsq ∧ getPt points i ≠ getPt points i0 ∧ getPt points i ≠ getPt points i1
      then (dsq, i) else acc)
    (0, 0)

/-- Fourth-vertex selection of `init_tetrahedron_indices`: the point whose
out-of-plane distance from the base triangle is maximal, excluding points
coinciding with the first three vertices.  Exactly, the unit normal the Rust
code builds (normalize, then one Gram–Schmidt step, then normalize) is
`w/|w|` with `w = (p1 - p0) × (p2 - p0)`, since `w` is already orthogonal to
the edge direction; the embedding compares the exact squared distances
`((p - p2)·w)² / |w|²`. -/
def selectFourth (points : List Vec3) (i0 i1 i2 : ℕ) : ℚ × ℕ :=
  let d01 := (getPt points i1).sub (getPt points i0)
  let w := d01.cross ((getPt points i2).sub (getPt points i0))
  (List.range points.length).foldl
    (fun acc i =>
      let t := ((getPt points i).sub (getPt points i2)).dot w
      let dsq := qdiv (qmul t t) w.lengthSq
      if qlt acc.1 dsq ∧ getPt points i ≠ getPt points i0 ∧ getPt points i ≠ getPt points i1
          ∧ getPt points i ≠ getPt points i2
      then (dsq, i) else acc)
    (0, 0)

/-- `ConvexHull::init_tetrahedron_indices`. -/
def initTetrahedronIndices (points : List Vec3) (e : ExtState) :
    Except ErrorKind (ℕ × ℕ × ℕ × ℕ) :=
  let me := maxExtentDim points e
  if me.1 = 0 then .error (.degenerateInput .coincident)
  else
    let i0 := maxIdxOfDim e me.2
    let i1 := minIdxOfDim e me.2
    let st := selectThird points i0 i1
    if st.1 = 0 then .error (.degenerateInput .collinear)
    else
      let sf := selectFourth points i0 i1 st.2
      if sf.1 = 0 then .error (.degenerateInput .coplanar)
      else .ok (i0, i1, st.2, sf.2)

/-- Swap of the first two entries of a list (the orientation flip
`face.indices.swap(0, 1)`). -/
def swap01 : List ℕ → List ℕ
  | a :: b :: rest => b :: a :: rest
  | l => l

/-- Flip the orientation of a face: swap the first two indices and negate the
normal and the plane offset. -/
def flipFace (f : Face) : Face :=
  { f with
    indices := swap01 f.indices
    normal := f.normal.neg
    distanceFromOrigin := qneg f.distanceFromOrigin }

/-- Build one oriented face of the initial simplex: the three indices of
`iset` other than position `iFace`, flipped if the remaining vertex has
positive signed position, with the vertex-count check. -/
def mkSimplexFace (points : List Vec3) (iset : List ℕ) (iFace : ℕ) :
    Except ErrorKind Face :=
  let faceIndices := (iset.enum.filter (fun p => p.1 != iFace)).map (fun p => p.2)
  let face := Face.fromTriangle points (faceIndices.getD 0 0) (faceIndices.getD 1 0)
    (faceIndices.getD 2 0)
  let rem := iset.getD iFace 0
  let face := if qlt 0 (positionFromFace points face rem) then flipFace face else face
  if face.indices.length ≠ 3 then .error (.roundOffError .faceVertices)
  else .ok face

/-- `ConvexHull::init_tetrahedron`: pick the four tetrahedron vertices, build
the four oriented faces under keys 0..3 and fully link their neighbors. -/
def initTetrahedron (points : List Vec3) : Except ErrorKind ConvexHull := do
  let e := computeExtremes points
  let (i0, i1, i2, i3) ← initTetrahedronIndices points e
  let iset := [i0, i1, i2, i3]
  let f0 ← mkSimplexFace points iset 0
  let f1 ← mkSimplexFace points iset 1
  let f2 ← mkSimplexFace points iset 2
  let f3 ← mkSimplexFace points iset 3
  .ok { points := points
        faces := [(0, { f0 with neighborFaces := [1, 2, 3] }),
                  (1, { f1 with neighborFaces := [0, 2, 3] }),
                  (2, { f2 with neighborFaces := [0, 1, 3] }),
                  (3, { f3 with neighborFaces := [0, 1, 2] })] }

/-- State carried through the main loop of `ConvexHull::update`: the face
map, the insertion-ordered assigned-point set and the next face key
(`face_add_count`). -/
structure UpdState where
  faces : List (ℕ × Face)
  assigned : List ℕ
  nextKey : ℕ
deriving DecidableEq

/-- The initial assigned set: every index of every face, in face-key order. -/
def initialAssigned (fs : List (ℕ × Face)) : List ℕ :=
  fs.foldl (fun acc p => p.2.indices.foldl insertNew acc) []

/-- Conflict-list seeding for one face: append every unassigned point the
face can see, paired with its signed position, in point-index order. -/
def seedFace (points : List Vec3) (assigned : List ℕ) (face : Face) : Face :=
  { face with
    outsidePoints := face.outsidePoints ++ ((List.range points.length).filterMap (fun i =>
      if i ∈ assigned then none
      else
        let pos := positionFromFace points face i
        if qlt 0 pos then some (i, pos) else none)) }

/-- The conflict-list seeding pass of `update`, over all faces in key order. -/
def seedOutsidePoints (points : List Vec3) (assigned : List ℕ)
    (fs : List (ℕ × Face)) : List (ℕ × Face) :=
  fs.map (fun p => (p.1, seedFace points assigned p.2))

/-- Apex selection (`face.outside_points.last()`). -/
def selectApex (face : Face) : Option (ℕ × ℚ) := face.outsidePoints.getLast?

/-- DFS of `initialize_visible_set`: pop a neighbor key from the stack; if
unvisited and strictly visible from the point, admit it and push its
neighbors.  The Rust stack pops from the back; the model keeps the stack
top at the head and pushes reversed neighbor lists, which yields the same
pop order.  Runs on fuel; exhaustion is a panic. -/
def visibleLoop (points : List Vec3) (fpi : ℕ) (faces : List (ℕ × Face)) :
    ℕ → List ℕ → List ℕ → List ℕ → M (List ℕ)
  | 0, stack, _, visible => if stack.isEmpty then .ok visible else .error .panic
  | _ + 1, [], _, visible => .ok visible
  | fuel + 1, nk :: stack, visited, visible =>
    if nk ∈ visited then visibleLoop points fpi faces fuel stack visited visible
    else
      match facesFind faces nk with
      | none => .error .panic
      | some nb =>
        if qlt 0 (positionFromFace points nb fpi) then
          visibleLoop points fpi faces fuel (nb.neighborFaces.reverse ++ stack)
            (visited ++ [nk]) (insertNew visible nk)
        else
          visibleLoop points fpi faces fuel stack (visited ++ [nk]) visible

/-- Fuel bound for the DFS: every stack element ever pushed is either from
the initial stack or the neighbor list of a newly visited face. -/
def visFuel (faces : List (ℕ × Face)) : ℕ :=
  2 * faces.foldl (fun a p => a + p.2.neighborFaces.length) 0 + faces.length + 8

/-- `initialize_visible_set`: the selected face plus every strictly visible
face reachable from it, in discovery order. -/
def computeVisibleSet (points : List Vec3) (fpi : ℕ) (faces : List (ℕ × Face))
    (faceKey : ℕ) (face : Face) : M (List ℕ) :=
  visibleLoop points fpi faces (visFuel faces) face.neighborFaces.reverse [] [faceKey]

/-- Horizon contribution of one visible face against one of its neighbor
keys: skip visible neighbors; for an unvisible neighbor check its vertex
count and return the two-vertex ridge. -/
def horizonOfNeighbor (faces : List (ℕ × Face)) (visible : List ℕ)
    (ptsOfVisible : List ℕ) (nk : ℕ) : M (Option (List ℕ × ℕ)) :=
  if nk ∈ visible then .ok none
  else
    match facesFind faces nk with
    | none => .error .panic
    | some unvis =>
      let ptsOfUnvis := dedupKeepFirst unvis.indices
      if ptsOfUnvis.length ≠ 3 then .error (.err (.roundOffError .unvisibleVertices))
      else
        let ridge := ptsOfUnvis.filter (fun i => i ∈ ptsOfVisible)
        if ridge.length ≠ 2 then .error (.err (.roundOffError .ridgeVertices))
        else .ok (some (ridge, nk))

/-- Horizon contributions of one visible face: vertex-count check, then its
neighbor keys in list order. -/
def horizonOfFace (faces : List (ℕ × Face)) (visible : List ℕ) (vk : ℕ) :
    M (List (List ℕ × ℕ)) := do
  match facesFind faces vk with
  | none => .error .panic
  | some vf =>
    let ptsOfVisible := dedupKeepFirst vf.indices
    if ptsOfVisible.length ≠ 3 then .error (.err (.roundOffError .visibleVertices))
    else
      (vf.neighborFaces.foldlM (fun acc nk => do
        match ← horizonOfNeighbor faces visible ptsOfVisible nk with
        | none => pure acc
        | some entry => pure (acc ++ [entry])) [])

/-- `compute_horizon`: ridges of every visible face (in visible-list order)
against its unvisible neighbors, with the final size check. -/
def computeHorizon (visible : List ℕ) (faces : List (ℕ × Face)) :
    M (List (List ℕ × ℕ)) := do
  let horizon ← visible.foldlM (fun acc vk => do
    pure (acc ++ (← horizonOfFace faces visible vk))) []
  if horizon.length < 3 then .error (.err (.roundOffError .horizonLen))
  else .ok horizon

/-- Create one fan face for a `(ridge, unvisible key)` pair: extend the
assigned set with the apex and ridge vertices, check the vertex count,
build the face, link it to its outside neighbor and allocate its key. -/
def buildNewFace (points : List Vec3) (fpi : ℕ) (st : UpdState × List ℕ)
    (rg : List ℕ × ℕ) : M (UpdState × List ℕ) := do
  let s := st.1
  let assigned := rg.1.foldl insertNew (insertNew s.assigned fpi)
  let nf := fpi :: rg.1
  if nf.length ≠ 3 then .error (.err (.roundOffError .newFaceVertices))
  else
    let newFace := Face.fromTriangle points (nf.getD 0 0) (nf.getD 1 0) (nf.getD 2 0)
    let newFace := { newFace with neighborFaces := [rg.2] }
    let newKey := s.nextKey
    let faces := facesInsert s.faces newKey newFace
    if (facesFind faces rg.2).isSome then
      .ok ({ faces := facesModify faces rg.2
               (fun f => { f with neighborFaces := f.neighborFaces ++ [newKey] })
             assigned := assigned
             nextKey := newKey + 1 }, st.2 ++ [newKey])
    else .error .panic

/-- Number of distinct indices shared by two faces
(`HashSet::intersection` count). -/
def sharedIndexCount (a b : Face) : ℕ :=
  ((dedupKeepFirst a.indices).filter (fun i => i ∈ b.indices)).length

/-- Link one new face `ka` against the later new faces `rest`: push the
symmetric adjacency for each pair sharing exactly two indices, then check
that `ka` ended with exactly three neighbors. -/
def linkOneNewFace (fs : List (ℕ × Face)) (ka : ℕ) (rest : List ℕ) :
    M (List (ℕ × Face)) := do
  let fs' ← rest.foldlM (fun fs kb => do
    match facesFind fs ka, facesFind fs kb with
    | some fa, some fb =>
      if sharedIndexCount fa fb = 2 then
        pure (facesModify
          (facesModify fs ka (fun f => { f with neighborFaces := f.neighborFaces ++ [kb] }))
          kb (fun f => { f with neighborFaces := f.neighborFaces ++ [ka] }))
      else pure fs
    | _, _ => .error .panic) fs
  match facesFind fs' ka with
  | none => .error .panic
  | some fa =>
    if fa.neighborFaces.length ≠ 3 then .error (.err (.roundOffError .neighborCount))
    else .ok fs'

/-- The pairwise linking loop over the new faces. -/
def linkNewFaces (fs : List (ℕ × Face)) (newKeys : List ℕ) : M (List (ℕ × Face)) :=
  (List.range newKeys.length).foldlM (fun fs i =>
    linkOneNewFace fs (newKeys.getD i 0) (newKeys.drop (i + 1))) fs

/-- Re-orientation of one new face: scan the assigned set in order; at the
first point with non-zero signed position flip the face if that position is
positive; if every assigned point lies on the plane of the face the face is
degenerate. -/
def reorientFace (points : List Vec3) (assigned : List ℕ) (face : Face) : M Face :=
  match assigned.find? (fun ai => decide (positionFromFace points face ai ≠ 0)) with
  | none => .error (.err .degenerated)
  | some ai =>
    if qlt 0 (positionFromFace points face ai) then .ok (flipFace face) else .ok face

/-- Re-orientation pass over the new faces. -/
def reorientNewFaces (points : List Vec3) (assigned : List ℕ)
    (fs : List (ℕ × Face)) (newKeys : List ℕ) : M (List (ℕ × Face)) :=
  newKeys.foldlM (fun fs nk => do
    match facesFind fs nk with
    | none => .error .panic
    | some f =>
      let f' ← reorientFace points assigned f
      pure (facesModify fs nk (fun _ => f'))) fs

/-- Stable ascending insertion by signed position (second component). -/
def insertSorted (x : ℕ × ℚ) : List (ℕ × ℚ) → List (ℕ × ℚ)
  | [] => [x]
  | y :: ys => if qlt x.2 y.2 then x :: y :: ys else y :: insertSorted x ys

/-- Stable sort of a conflict list in ascending order of signed position
(`sort_by` with `partial_cmp` on the stored positions). -/
def sortByPos (l : List (ℕ × ℚ)) : List (ℕ × ℚ) := l.foldl (fun acc x => insertSorted x acc) []

/-- Conflict-point redistribution onto one new face: scan the conflict lists of the cloned visible
faces; skip assigned or already re-checked points; attach a
point if its signed position against the new face is positive; finally sort
the conflict list of the face by position. -/
def collectOrphans (points : List Vec3) (assigned : List ℕ) (face : Face)
    (visibleFaces : List Face) : Face :=
  let step := fun (acc : List (ℕ × ℚ) × List ℕ) (op : ℕ × ℚ) =>
    if op.1 ∈ assigned ∨ op.1 ∈ acc.2 then acc
    else
      let checked := acc.2 ++ [op.1]
      let pos := positionFromFace points face op.1
      if qlt 0 pos then (acc.1 ++ [(op.1, pos)], checked) else (acc.1, checked)
  let adds := (visibleFaces.foldl (fun acc vf => vf.outsidePoints.foldl step acc) ([], [])).1
  { face with outsidePoints := sortByPos (face.outsidePoints ++ adds) }

/-- The redistribution pass over the new faces. -/
def redistributePoints (points : List Vec3) (assigned : List ℕ)
    (fs : List (ℕ × Face)) (newKeys : List ℕ) (visibleFaces : List Face) :
    M (List (ℕ × Face)) :=
  newKeys.foldlM (fun fs nk =>
    match facesFind fs nk with
    | none => .error .panic
    | some f => .ok (facesModify fs nk (fun _ => collectOrphans points assigned f visibleFaces))) fs

/-- `Vec::swap_remove`: replace position `i` with the last element and drop
the last element. -/
def swapRemove (l : List ℕ) (i : ℕ) : List ℕ := (l.set i (l.getD (l.length - 1) 0)).dropLast

/-- Delete one visible face: remove its key from the
adjacency list of each of its neighbors (first occurrence, by `swap_remove`), then erase it. -/
def deleteVisibleFace (fs : List (ℕ × Face)) (vk : ℕ) : M (List (ℕ × Face)) := do
  match facesFind fs vk with
  | none => .error .panic
  | some vf =>
    let fs' ← vf.neighborFaces.foldlM (fun fs nbk => do
      match facesFind fs nbk with
      | none => .error .panic
      | some nb =>
        match nb.neighborFaces.findIdx? (fun k => k == vk) with
        | none => .error .panic
        | some i =>
          pure (facesModify fs nbk (fun f => { f with neighborFaces := swapRemove f.neighborFaces i }))) fs
    .ok (facesErase fs' vk)

/-- Deletion pass over the visible set, in its list order. -/
def deleteVisibleFaces (fs : List (ℕ × Face)) (visible : List ℕ) : M (List (ℕ × Face)) :=
  visible.foldlM deleteVisibleFace fs

/-- The `new_keys.len() < 3` check after fan-face creation. -/
def checkNewKeysCount (newKeys : List ℕ) : M Unit :=
  if newKeys.length < 3 then .error (.err (.roundOffError .newFaceCount)) else .ok ()

/-- Clone the visible faces out of the face map, in visible-list order. -/
def cloneVisibleFaces (fs : List (ℕ × Face)) (visible : List ℕ) : M (List Face) :=
  visible.foldlM (fun acc vk => ofOption (facesFind fs vk) >>= fun f => pure (acc ++ [f])) []

/-- One iteration of the main quickhull loop, for the selected face
`(key, face)`: apex selection, visible set, horizon, fan-face creation,
linking, re-orientation, redistribution and deletion. -/
def updateIteration (points : List Vec3) (s : UpdState) (key : ℕ) (face : Face) :
    M UpdState :=
  ofOption (selectApex face) >>= fun apex =>
  computeVisibleSet points apex.1 s.faces key face >>= fun visible =>
  computeHorizon visible s.faces >>= fun horizon =>
  horizon.foldlM (buildNewFace points apex.1) (s, []) >>= fun p =>
  checkNewKeysCount p.2 >>= fun _ =>
  linkNewFaces p.1.faces p.2 >>= fun fs2 =>
  reorientNewFaces points p.1.assigned fs2 p.2 >>= fun fs3 =>
  cloneVisibleFaces fs3 visible >>= fun visibleFaces =>
  redistributePoints points p.1.assigned fs3 p.2 visibleFaces >>= fun fs4 =>
  deleteVisibleFaces fs4 visible >>= fun fs5 =>
  .ok { faces := fs5, assigned := p.1.assigned, nextKey := p.1.nextKey }

/-- Selection of the face processed next: the lowest-keyed face with a
non-empty conflict list (`BTreeMap` iteration order). -/
def findPending (fs : List (ℕ × Face)) : Option (ℕ × Face) :=
  fs.find? (fun p => !p.2.outsidePoints.isEmpty)

/-- The main loop of `update`, on fuel: stop when no face has conflicts or
when a supplied iteration cap is reached. -/
def updateLoop (points : List Vec3) :
    ℕ → Bool → ℕ → ℕ → UpdState → M UpdState
  | 0, _, _, _, _ => .error .panic
  | fuel + 1, truncate, maxIter, numIter, s =>
    match findPending s.faces with
    | none => .ok s
    | some (key, face) =>
      if truncate ∧ numIter ≥ maxIter then .ok s
      else do
        let s' ← updateIteration points s key face
        updateLoop points fuel truncate maxIter (numIter + 1) s'

/-- `ConvexHull::is_convex`: some face reports non-positive signed position
for the probe point with index 0. -/
def isConvex (h : ConvexHull) : Bool :=
  h.faces.any (fun p => qle (positionFromFace h.points p.2 0) 0)

/-- `ConvexHull::update` up to and including the main loop (assigned-set
marking, conflict-list seeding, loop). -/
def updateRun (h : ConvexHull) (maxIter : Option ℕ) (fuel : ℕ) : M UpdState :=
  ofOption ((h.faces.map (fun p => p.1)).getLast?) >>= fun lastKey =>
  updateLoop h.points fuel maxIter.isSome (maxIter.getD 0) 0
    { faces := seedOutsidePoints h.points (initialAssigned h.faces) h.faces
      assigned := initialAssigned h.faces
      nextKey := lastKey + 1 }

/-- `ConvexHull::update`: the main loop followed by the convexity probe. -/
def update (h : ConvexHull) (maxIter : Option ℕ) (fuel : ℕ) : M ConvexHull :=
  updateRun h maxIter fuel >>= fun s =>
    if isConvex { h with faces := s.faces } then .ok { h with faces := s.faces }
    else .error (.err (.roundOffError .concave))

/-- Ordered insertion into a sorted duplicate-free list (`BTreeSet::insert`). -/
def insertSortedNat (x : ℕ) : List ℕ → List ℕ
  | [] => [x]
  | y :: ys => if x < y then x :: y :: ys else if x = y then y :: ys else y :: insertSortedNat x ys

/-- The sorted set of point indices referenced by some face. -/
def referencedIndices (fs : List (ℕ × Face)) : List ℕ :=
  fs.foldl (fun acc p => p.2.indices.foldl (fun a i => insertSortedNat i a) acc) []

/-- Rank of an index in the sorted referenced set (the compaction mapping
`old index -> position`). -/
def rankOf (sorted : List ℕ) (i : ℕ) : ℕ := (sorted.findIdx? (fun j => j == i)).getD 0

/-- `ConvexHull::remove_unused_points`: rewrite the indices of every face through
the compaction mapping and rebuild the point array over the referenced
indices in ascending order. -/
def removeUnusedPoints (h : ConvexHull) : ConvexHull :=
  let refs := referencedIndices h.faces
  { points := refs.map (getPt h.points)
    faces := h.faces.map (fun p =>
      (p.1, { p.2 with indices := p.2.indices.map (rankOf refs) })) }

/-- `ConvexHull::vertices_indices`: the point array and the concatenation of
the indices of every face in key order. -/
def verticesIndices (h : ConvexHull) : List Vec3 × List ℕ :=
  (h.points, h.faces.foldl (fun acc p => acc ++ p.2.indices) [])

/-- Lift a library error into the outcome monad. -/
def liftErr {α : Type} : Except ErrorKind α → M α
  | .ok a => .ok a
  | .error e => .error (.err e)

/-- `ConvexHull::try_new`: size gates, initial simplex, main update, point
compaction and the final size check. -/
def tryNew (points : List Vec3) (maxIter : Option ℕ) (fuel : ℕ) : M ConvexHull :=
  if points.length = 0 then .error (.err .empty)
  else if points.length ≤ 3 then .error (.err .degenerated)
  else
    liftErr (initTetrahedron points) >>= fun c =>
    update c maxIter fuel >>= fun c2 =>
    (if (removeUnusedPoints c2).points.length ≤ 3 then .error (.err .degenerated)
     else .ok (removeUnusedPoints c2))

/-- `ConvexHull::add_points` on a hull value, returning the final state of
the mutated receiver together with the result of the call: the points are
appended first, then `update` runs, then compaction and the size check. -/
def addPoints (h : ConvexHull) (ps : List Vec3) (fuel : ℕ) : ConvexHull × M Unit :=
  let h1 : ConvexHull := { h with points := h.points ++ ps }
  match update h1 none fuel with
  | .error e => (h1, .error e)
  | .ok h2 =>
    let h3 := removeUnusedPoints h2
    if h3.points.length ≤ 3 then (h3, .error (.err .degenerated)) else (h3, .ok ())

instance {ε α : Type} [DecidableEq ε] [DecidableEq α] : DecidableEq (Except ε α) := fun a b =>
  match a, b with
  | .ok x, .ok y => if h : x = y then .isTrue (by rw [h]) else .isFalse (by simp [h])
  | .error x, .error y => if h : x = y then .isTrue (by rw [h]) else .isFalse (by simp [h])
  | .ok _, .error _ => .isFalse (by simp)
  | .error _, .ok _ => .isFalse (by simp)

/-- The faces whose index list contains both endpoints of an edge. -/
def facesContainingEdge (fs : List (ℕ × Face)) (a b : ℕ) : List ℕ :=
  (fs.filter (fun p => p.2.indices.contains a && p.2.indices.contains b)).map (fun p => p.1)

/-- How many faces share the edge with the given endpoints. -/
def edgeFaceCount (h : ConvexHull) (a b : ℕ) : ℕ := (facesContainingEdge h.faces a b).length

/-- Input of the error-atomicity counterexample. -/
def c3pts : List Vec3 := [⟨-3, 4, 0⟩, ⟨3, 1, -2⟩, ⟨3, 3, -4⟩, ⟨-1, -3, -1⟩, ⟨0, 4, 0⟩]

/-- The point appended by the error-atomicity counterexample. -/
def c3q : Vec3 := ⟨-2, 3, -3⟩

/-- The hull produced by `tryNew c3pts (some 0)`: the initial tetrahedron,
compacted, with a stale conflict-list entry `(1, 58)` left on face 0 (before
compaction that entry referred to the dropped input point `(3, 1, -2)`;
after compaction index 1 names the hull vertex `(3, 3, -4)`). -/
def c3hull : ConvexHull :=
  { points := [⟨(-3 : ℚ), (4 : ℚ), (0 : ℚ)⟩, ⟨(3 : ℚ), (3 : ℚ), (-4 : ℚ)⟩,
               ⟨(-1 : ℚ), (-3 : ℚ), (-1 : ℚ)⟩, ⟨(0 : ℚ), (4 : ℚ), (0 : ℚ)⟩]
    faces := [(0, { indices := [2, 1, 3]
                    outsidePoints := [(1, (58 : ℚ))]
                    neighborFaces := [1, 2, 3]
                    normal := ⟨(27 : ℚ), (-7 : ℚ), (22 : ℚ)⟩
                    distanceFromOrigin := (-28 : ℚ) }),
              (1, { indices := [1, 0, 3]
                    outsidePoints := []
                    neighborFaces := [0, 2, 3]
                    normal := ⟨(0 : ℚ), (12 : ℚ), (-3 : ℚ)⟩
                    distanceFromOrigin := (48 : ℚ) }),
              (2, { indices := [0, 2, 3]
                    outsidePoints := []
                    neighborFaces := [0, 1, 3]
                    normal := ⟨(0 : ℚ), (-3 : ℚ), (21 : ℚ)⟩
                    distanceFromOrigin := (-12 : ℚ) }),
              (3, { indices := [2, 0, 1]
                    outsidePoints := []
                    neighborFaces := [0, 1, 2]
                    normal := ⟨(-27 : ℚ), (-2 : ℚ), (-40 : ℚ)⟩
                    distanceFromOrigin := (73 : ℚ) })] }

/-- Input of the closure counterexample. -/
def c4pts : List Vec3 := [⟨-3, -2, -1⟩, ⟨-4, -3, 3⟩, ⟨0, 2, -4⟩, ⟨2, -1, -4⟩, ⟨-3, 1, 0⟩]

/-- The point appended by the closure counterexample. -/
def c4q : Vec3 := ⟨-3, 2, -2⟩

/-- Input whose seeding pass lists one point on two conflict lists. -/
def e2pts : List Vec3 := [⟨0, 0, 0⟩, ⟨10, 0, 0⟩, ⟨5, 10, 0⟩, ⟨5, 5, 10⟩, ⟨8, 1, 8⟩]

/-- C2, counterexample.  After the conflict-list seeding pass on the initial
tetrahedron of `e2pts`, the unassigned point 4 appears on the conflict lists
of both face 1 and face 3 — seeding appends a point to every face that sees
it, not only to the first. -/
theorem C2_counterexample :
    (initTetrahedron e2pts).map (fun h =>
        (seedOutsidePoints h.points (initialAssigned h.faces) h.faces).map
          (fun p => (p.1, p.2.outsidePoints))) =
      .ok [(0, []), (1, [(4, 50)]), (2, []), (3, [(4, 300)])] := by decide

/-- C3, counterexample.  `try_new` with an iteration cap returns `c3hull`;
`add_points` of one more point on it returns the round-off error about the
neighbor count, yet the receiver has been mutated: the appended point stays
in its point array, so the hull is not left unchanged on error. -/
theorem C3_counterexample :
    tryNew c3pts (some 0) 40 = .ok c3hull ∧
    (addPoints c3hull [c3q] 40).2 = .error (.err (.roundOffError .neighborCount)) ∧
    (addPoints c3hull [c3q] 40).1.points = c3hull.points ++ [c3q] ∧
    (addPoints c3hull [c3q] 40).1 ≠ c3hull := by
  refine ⟨by decide, by decide, by decide, by decide⟩

/-- C4, counterexample.  `try_new` with an iteration cap succeeds on
`c4pts`; `add_points` of one more point then also succeeds, but the final
hull contains the edge `{2, 4}` on four faces (two of them the duplicated
triangle `[2, 4, 1]`), violating the closed-two-manifold invariant that
every edge is shared by exactly two faces. -/
theorem C4_counterexample :
    ((tryNew c4pts (some 0) 60).map (fun h =>
      let r := addPoints h [c4q] 60
      (decide (r.2 = .ok ()), edgeFaceCount r.1 2 4))) = .ok (true, 4) := by decide

theorem bind_ok {ε α β : Type} {x : Except ε α} {f : α → Except ε β} {b : β}
    (h : (x >>= f) = .ok b) : ∃ a, x = .ok a ∧ f a = .ok b := by
  cases x with
  | ok a => exact ⟨a, rfl, h⟩
  | error e => simp [Bind.bind, Except.bind] at h

theorem bind_error {ε α β : Type} {x : Except ε α} {f : α → Except ε β} {e : ε}
    (h : (x >>= f) = .error e) : x = .error e ∨ ∃ a, x = .ok a ∧ f a = .error e := by
  cases x with
  | ok a => exact Or.inr ⟨a, rfl, h⟩
  | error e' => left; simpa [Bind.bind, Except.bind] using h

/-- Input of the four-point witness runs. -/
def w4pts : List Vec3 := [⟨0, 0, 0⟩, ⟨1, 0, 0⟩, ⟨0, 1, 0⟩, ⟨0, 0, 1⟩]

/-- The hull `tryNew w4pts` produces (the oriented initial tetrahedron). -/
def w4hull : ConvexHull :=
  { points := [⟨0, 0, 0⟩, ⟨1, 0, 0⟩, ⟨0, 1, 0⟩, ⟨0, 0, 1⟩]
    faces := [(0, { indices := [2, 0, 3]
                    outsidePoints := []
                    neighborFaces := [1, 2, 3]
                    normal := ⟨-1, 0, 0⟩
                    distanceFromOrigin := 0 }),
              (1, { indices := [1, 2, 3]
                    outsidePoints := []
                    neighborFaces := [0, 2, 3]
                    normal := ⟨1, 1, 1⟩
                    distanceFromOrigin := 1 }),
              (2, { indices := [0, 1, 3]
                    outsidePoints := []
                    neighborFaces := [0, 1, 3]
                    normal := ⟨0, -1, 0⟩
                    distanceFromOrigin := 0 }),
              (3, { indices := [1, 0, 2]
                    outsidePoints := []
                    neighborFaces := [0, 1, 2]
                    normal := ⟨0, 0, -1⟩
                    distanceFromOrigin := 0 })] }

/-- C3, amended theorem: when the `update` stage of `add_points` fails, the
caller receives the error, but the receiving hull is left modified rather
than restored — its point array is the old one with the new points appended
(and in particular differs from the original whenever any point was
appended). -/
theorem C3_amended (h : ConvexHull) (ps : List Vec3) (fuel : ℕ) (e : Fail)
    (herr : update { h with points := h.points ++ ps } none fuel = .error e) :
    addPoints h ps fuel = ({ h with points := h.points ++ ps }, .error e) ∧
    (ps ≠ [] → ({ h with points := h.points ++ ps } : ConvexHull) ≠ h) := by
  constructor
  · rw [addPoints, herr]
  · intro hps hcontra
    apply hps
    have hpts : h.points ++ ps = h.points := congrArg ConvexHull.points hcontra
    have : h.points ++ ps = h.points ++ [] := by simpa using hpts
    exact List.append_cancel_left this

theorem C3_amended_witness :
    addPoints c3hull [c3q] 40 =
      ({ c3hull with points := c3hull.points ++ [c3q] },
        .error (.err (.roundOffError .neighborCount))) ∧
    ({ c3hull with points := c3hull.points ++ [c3q] } : ConvexHull) ≠ c3hull :=
  have t := C3_amended c3hull [c3q] 40 (.err (.roundOffError .neighborCount)) (by decide)
  ⟨t.1, t.2 (by decide)⟩

theorem isConvex_iff (h : ConvexHull) :
    isConvex h = true ↔ ∃ p ∈ h.faces, positionFromFace h.points p.2 0 ≤ 0 := by
  rw [isConvex, List.any_eq_true]
  simp only [qle_iff]

/-- C9: after the main loop returns a state, `update` performs the convexity
probe on point index 0: it succeeds with the probed face set exactly when
some face reports non-positive signed position for point 0, and fails with
the concavity round-off error exactly when every face reports a strictly
positive position. -/
theorem C9_convexity_probe (h : ConvexHull) (maxIter : Option ℕ) (fuel : ℕ)
    (s : UpdState) (hrun : updateRun h maxIter fuel = .ok s) :
    (update h maxIter fuel = .ok { h with faces := s.faces } ↔
      ∃ p ∈ s.faces, positionFromFace h.points p.2 0 ≤ 0) ∧
    (update h maxIter fuel = .error (.err (.roundOffError .concave)) ↔
      ∀ p ∈ s.faces, 0 < positionFromFace h.points p.2 0) := by
  have hupd : update h maxIter fuel =
      (if isConvex { h with faces := s.faces } then .ok { h with faces := s.faces }
       else .error (.err (.roundOffError .concave))) := by
    rw [update, hrun]
    rfl
  have hiff := isConvex_iff { h with faces := s.faces }
  simp only at hiff
  cases hcv : isConvex { h with faces := s.faces } with
  | true =>
    have hex := hiff.mp hcv
    rw [hcv] at hupd
    simp only [if_true] at hupd
    refine ⟨⟨fun _ => hex, fun _ => hupd⟩, ⟨fun habs => ?_, fun hall => ?_⟩⟩
    · rw [hupd] at habs
      cases habs
    · obtain ⟨p, hp, hle⟩ := hex
      exact absurd hle (not_le.mpr (hall p hp))
  | false =>
    have hnex : ¬ ∃ p ∈ s.faces, positionFromFace h.points p.2 0 ≤ 0 := by
      intro hex
      rw [hiff.mpr hex] at hcv
      cases hcv
    rw [hcv] at hupd
    simp only [Bool.false_eq_true, if_false] at hupd
    refine ⟨⟨fun hok => ?_, fun hex => absurd hex hnex⟩,
      ⟨fun _ => ?_, fun _ => hupd⟩⟩
    · rw [hupd] at hok
      cases hok
    · intro p hp
      by_contra hneg
      exact hnex ⟨p, hp, not_lt.mp hneg⟩

/-- The state reached by `updateRun` on the witness tetrahedron. -/
def w4upd : UpdState := { faces := w4hull.faces, assigned := [2, 0, 3, 1], nextKey := 4 }

theorem C9_convexity_probe_witness :
    update w4hull none 10 = .ok { w4hull with faces := w4upd.faces } :=
  (C9_convexity_probe w4hull none 10 w4upd (by decide)).1.mpr (by decide)

theorem insertSorted_mem {a x : ℕ × ℚ} : ∀ {l : List (ℕ × ℚ)},
    a ∈ insertSorted x l ↔ a = x ∨ a ∈ l := by
  intro l
  induction l with
  | nil => simp [insertSorted]
  | cons y ys ih =>
    rw [insertSorted]
    cases hq : qlt x.2 y.2 with
    | true =>
      rw [if_pos rfl]
      simp [List.mem_cons]
    | false =>
      rw [if_neg (by simp)]
      simp only [List.mem_cons, ih]
      tauto

theorem insertSorted_pairwise {x : ℕ × ℚ} : ∀ {l : List (ℕ × ℚ)},
    l.Pairwise (fun a b => a.2 ≤ b.2) →
    (insertSorted x l).Pairwise (fun a b => a.2 ≤ b.2) := by
  intro l
  induction l with
  | nil => intro _; simp [insertSorted]
  | cons y ys ih =>
    intro hl
    rw [List.pairwise_cons] at hl
    rw [insertSorted]
    cases hq : qlt x.2 y.2 with
    | true =>
      have hxy : x.2 < y.2 := (qlt_iff _ _).mp hq
      rw [if_pos rfl, List.pairwise_cons]
      refine ⟨?_, List.pairwise_cons.mpr hl⟩
      intro z hz
      rcases List.mem_cons.mp hz with hzy | hzys
      · rw [hzy]; exact le_of_lt hxy
      · exact le_trans (le_of_lt hxy) (hl.1 z hzys)
    | false =>
      have hyx : y.2 ≤ x.2 := by
        by_contra hc
        rw [(qlt_iff x.2 y.2).mpr (not_le.mp hc)] at hq
        cases hq
      rw [if_neg (by simp), List.pairwise_cons]
      refine ⟨?_, ih hl.2⟩
      intro z hz
      rcases insertSorted_mem.mp hz with hzx | hzys
      · rw [hzx]; exact hyx
      · exact hl.1 z hzys

theorem sortByPos_pairwise (l : List (ℕ × ℚ)) :
    (sortByPos l).Pairwise (fun a b => a.2 ≤ b.2) := by
  rw [sortByPos]
  have : ∀ (xs : List (ℕ × ℚ)) (acc : List (ℕ × ℚ)),
      acc.Pairwise (fun a b => a.2 ≤ b.2) →
      (xs.foldl (fun acc x => insertSorted x acc) acc).Pairwise (fun a b => a.2 ≤ b.2) := by
    intro xs
    induction xs with
    | nil => intro acc h; exact h
    | cons x xs ih => intro acc h; exact ih _ (insertSorted_pairwise h)
  exact this l [] (by simp)

theorem pairwise_getLast_max : ∀ {l : List (ℕ × ℚ)},
    l.Pairwise (fun a b => a.2 ≤ b.2) → l ≠ [] →
    ∃ a, l.getLast? = some a ∧ a ∈ l ∧ ∀ e ∈ l, e.2 ≤ a.2 := by
  intro l
  induction l with
  | nil => intro _ hne; exact absurd rfl hne
  | cons x xs ih =>
    intro hp _
    cases xs with
    | nil =>
      refine ⟨x, rfl, List.mem_singleton.mpr rfl, ?_⟩
      intro e he
      rw [List.mem_singleton.mp he]
    | cons y ys =>
      rw [List.pairwise_cons] at hp
      obtain ⟨a, hlast, hmem, hmax⟩ := ih hp.2 (by simp)
      refine ⟨a, ?_, List.mem_cons_of_mem _ hmem, ?_⟩
      · rw [List.getLast?_cons_cons]
        exact hlast
      · intro e he
        rcases List.mem_cons.mp he with hex | hexs
        · rw [hex]
          exact le_trans (hp.1 a hmem) (le_refl _)
        · exact hmax e hexs

/-- C7: the redistribution step leaves every new face with a conflict list
sorted in ascending order of signed position, and the apex selected from a
face is the last element of its conflict list — for a sorted list, the
entry of maximal signed position. -/
theorem C7_apex_and_sorting :
    (∀ (points : List Vec3) (assigned : List ℕ) (face : Face) (vfs : List Face),
      ((collectOrphans points assigned face vfs).outsidePoints).Pairwise
        (fun a b : ℕ × ℚ => a.2 ≤ b.2)) ∧
    (∀ face : Face, face.outsidePoints ≠ [] →
      (face.outsidePoints).Pairwise (fun a b : ℕ × ℚ => a.2 ≤ b.2) →
      ∃ a, selectApex face = some a ∧ a ∈ face.outsidePoints ∧
        ∀ e ∈ face.outsidePoints, e.2 ≤ a.2) := by
  constructor
  · intro points assigned face vfs
    rw [collectOrphans]
    exact sortByPos_pairwise _
  · intro face hne hsorted
    obtain ⟨a, hlast, hmem, hmax⟩ := pairwise_getLast_max hsorted hne
    exact ⟨a, hlast, hmem, hmax⟩

/-- A concrete face with a sorted two-entry conflict list. -/
def w7face : Face :=
  { indices := [0, 1, 2]
    outsidePoints := [(3, 1), (4, 2)]
    neighborFaces := []
    normal := ⟨0, 0, 1⟩
    distanceFromOrigin := 0 }

theorem C7_apex_and_sorting_witness :
    ((collectOrphans [] [] w7face []).outsidePoints).Pairwise
      (fun a b : ℕ × ℚ => a.2 ≤ b.2) ∧
    ∃ a, selectApex w7face = some a ∧ a ∈ w7face.outsidePoints ∧
      ∀ e ∈ w7face.outsidePoints, e.2 ≤ a.2 :=
  ⟨C7_apex_and_sorting.1 [] [] w7face [],
   C7_apex_and_sorting.2 w7face (by decide) (by decide)⟩

/-- The shape of every failure the main loop machinery can produce: a panic,
a `Degenerated` error or some round-off error — never a `DegenerateInput`. -/
def LoopFail (e : Fail) : Prop :=
  e = .panic ∨ e = .err .degenerated ∨ ∃ m, e = .err (.roundOffError m)

theorem foldlM_error {α β : Type} {P : Fail → Prop} {step : β → α → M β}
    (hstep : ∀ acc x e, step acc x = .error e → P e) :
    ∀ (l : List α) (init : β) (e : Fail), l.foldlM step init = .error e → P e := by
  intro l
  induction l with
  | nil => intro init e h; exact Except.noConfusion h
  | cons x xs ih =>
    intro init e h
    rw [List.foldlM_cons] at h
    rcases bind_error h with hx | ⟨b, _, hrest⟩
    · exact hstep _ _ _ hx
    · exact ih _ _ hrest

theorem ofOption_error {α : Type} {o : Option α} {e : Fail}
    (h : ofOption o = .error e) : e = .panic := by
  cases o with
  | some a => cases h
  | none => cases h; rfl

theorem visibleLoop_error {points fpi faces} :
    ∀ {fuel : ℕ} {stack visited visible : List ℕ} {e : Fail},
      visibleLoop points fpi faces fuel stack visited visible = .error e → e = .panic := by
  intro fuel
  induction fuel with
  | zero =>
    intro stack visited visible e h
    rw [visibleLoop] at h
    split at h
    · cases h
    · cases h; rfl
  | succ n ih =>
    intro stack visited visible e h
    cases stack with
    | nil => cases h
    | cons nk rest =>
      rw [visibleLoop] at h
      split at h
      · exact ih h
      · split at h
        · cases h; rfl
        · split at h
          · exact ih h
          · exact ih h

theorem horizonOfNeighbor_error {faces visible ptsOfVisible nk e}
    (h : horizonOfNeighbor faces visible ptsOfVisible nk = .error e) : LoopFail e := by
  simp only [horizonOfNeighbor] at h
  split at h
  · cases h
  · split at h
    · cases h; exact Or.inl rfl
    · split at h
      · cases h; exact Or.inr (Or.inr ⟨_, rfl⟩)
      · split at h
        · cases h; exact Or.inr (Or.inr ⟨_, rfl⟩)
        · cases h

theorem horizonOfFace_error {faces visible vk e}
    (h : horizonOfFace faces visible vk = .error e) : LoopFail e := by
  simp only [horizonOfFace] at h
  split at h
  · cases h; exact Or.inl rfl
  · split at h
    · cases h; exact Or.inr (Or.inr ⟨_, rfl⟩)
    · refine foldlM_error (P := LoopFail) ?_ _ _ _ h
      intro acc nk e' hstep
      rcases bind_error hstep with hn | ⟨r, _, hrest⟩
      · exact horizonOfNeighbor_error hn
      · revert hrest
        split
        · intro hh; cases hh
        · intro hh; cases hh

theorem computeHorizon_error {visible faces e}
    (h : computeHorizon visible faces = .error e) : LoopFail e := by
  simp only [computeHorizon] at h
  rcases bind_error h with hfold | ⟨horizon, _, hrest⟩
  · refine foldlM_error (P := LoopFail) ?_ _ _ _ hfold
    intro acc vk e' hstep
    rcases bind_error hstep with hf | ⟨r, _, hr⟩
    · exact horizonOfFace_error hf
    · cases hr
  · revert hrest
    split
    · intro hh; cases hh; exact Or.inr (Or.inr ⟨_, rfl⟩)
    · intro hh; cases hh

theorem buildNewFace_error {points fpi st rg e}
    (h : buildNewFace points fpi st rg = .error e) : LoopFail e := by
  simp only [buildNewFace] at h
  split at h
  · cases h; exact Or.inr (Or.inr ⟨_, rfl⟩)
  · split at h
    · cases h
    · cases h; exact Or.inl rfl

theorem linkOneNewFace_error {fs ka rest e}
    (h : linkOneNewFace fs ka rest = .error e) : LoopFail e := by
  simp only [linkOneNewFace] at h
  rcases bind_error h with hfold | ⟨fs', _, hrest⟩
  · refine foldlM_error (P := LoopFail) ?_ _ _ _ hfold
    intro acc kb e' hstep
    revert hstep
    split
    · split
      · intro hh; cases hh
      · intro hh; cases hh
    · intro hh; cases hh; exact Or.inl rfl
  · revert hrest
    split
    · intro hh; cases hh; exact Or.inl rfl
    · split
      · intro hh; cases hh; exact Or.inr (Or.inr ⟨_, rfl⟩)
      · intro hh; cases hh

theorem linkNewFaces_error {fs newKeys e}
    (h : linkNewFaces fs newKeys = .error e) : LoopFail e := by
  simp only [linkNewFaces] at h
  refine foldlM_error (P := LoopFail) ?_ _ _ _ h
  intro acc i e' hstep
  exact linkOneNewFace_error hstep

theorem reorientFace_error {points assigned face e}
    (h : reorientFace points assigned face = .error e) : LoopFail e := by
  simp only [reorientFace] at h
  split at h
  · cases h; exact Or.inr (Or.inl rfl)
  · split at h
    · cases h
    · cases h

theorem reorientNewFaces_error {points assigned fs newKeys e}
    (h : reorientNewFaces points assigned fs newKeys = .error e) : LoopFail e := by
  simp only [reorientNewFaces] at h
  refine foldlM_error (P := LoopFail) ?_ _ _ _ h
  intro acc nk e' hstep
  revert hstep
  split
  · intro hh; cases hh; exact Or.inl rfl
  · intro hh
    rcases bind_error hh with hre | ⟨f', _, hrest⟩
    · exact reorientFace_error hre
    · cases hrest

theorem redistributePoints_error {points assigned fs newKeys visibleFaces e}
    (h : redistributePoints points assigned fs newKeys visibleFaces = .error e) :
    LoopFail e := by
  simp only [redistributePoints] at h
  refine foldlM_error (P := LoopFail) ?_ _ _ _ h
  intro acc nk e' hstep
  revert hstep
  split
  · intro hh; cases hh; exact Or.inl rfl
  · intro hh; cases hh

theorem deleteVisibleFace_error {fs vk e}
    (h : deleteVisibleFace fs vk = .error e) : LoopFail e := by
  simp only [deleteVisibleFace] at h
  split at h
  · cases h; exact Or.inl rfl
  · rcases bind_error h with hfold | ⟨fs', _, hrest⟩
    · refine foldlM_error (P := LoopFail) ?_ _ _ _ hfold
      intro acc nbk e' hstep
      revert hstep
      split
      · intro hh; cases hh; exact Or.inl rfl
      · split
        · intro hh; cases hh; exact Or.inl rfl
        · intro hh; cases hh
    · cases hrest

theorem deleteVisibleFaces_error {fs visible e}
    (h : deleteVisibleFaces fs visible = .error e) : LoopFail e := by
  simp only [deleteVisibleFaces] at h
  refine foldlM_error (P := LoopFail) ?_ _ _ _ h
  intro acc vk e' hstep
  exact deleteVisibleFace_error hstep

theorem checkNewKeysCount_error {newKeys e}
    (h : checkNewKeysCount newKeys = .error e) : LoopFail e := by
  simp only [checkNewKeysCount] at h
  split at h
  · cases h; exact Or.inr (Or.inr ⟨_, rfl⟩)
  · cases h

theorem cloneVisibleFaces_error {fs visible e}
    (h : cloneVisibleFaces fs visible = .error e) : LoopFail e := by
  simp only [cloneVisibleFaces] at h
  refine foldlM_error (P := LoopFail) ?_ _ _ _ h
  intro acc vk e' hstep
  rcases bind_error hstep with ho | ⟨f, _, hrest⟩
  · exact Or.inl (ofOption_error ho)
  · cases hrest

theorem updateIteration_error {points s key face e}
    (h : updateIteration points s key face = .error e) : LoopFail e := by
  rw [updateIteration] at h
  rcases bind_error h with ha | ⟨apex, _, h⟩
  · exact Or.inl (ofOption_error ha)
  rcases bind_error h with hv | ⟨visible, _, h⟩
  · exact Or.inl (visibleLoop_error hv)
  rcases bind_error h with hh | ⟨horizon, _, h⟩
  · exact computeHorizon_error hh
  rcases bind_error h with hb | ⟨p, _, h⟩
  · refine foldlM_error (P := LoopFail) ?_ _ _ _ hb
    intro acc rg e' hstep
    exact buildNewFace_error hstep
  rcases bind_error h with hc | ⟨u, _, h⟩
  · exact checkNewKeysCount_error hc
  rcases bind_error h with hl | ⟨fs2, _, h⟩
  · exact linkNewFaces_error hl
  rcases bind_error h with hr | ⟨fs3, _, h⟩
  · exact reorientNewFaces_error hr
  rcases bind_error h with hvf | ⟨visibleFaces, _, h⟩
  · exact cloneVisibleFaces_error hvf
  rcases bind_error h with hrd | ⟨fs4, _, h⟩
  · exact redistributePoints_error hrd
  rcases bind_error h with hd | ⟨fs5, _, h⟩
  · exact deleteVisibleFaces_error hd
  cases h

theorem updateLoop_error {points} :
    ∀ {fuel : ℕ} {truncate : Bool} {maxIter numIter : ℕ} {s : UpdState} {e : Fail},
      updateLoop points fuel truncate maxIter numIter s = .error e → LoopFail e := by
  intro fuel
  induction fuel with
  | zero =>
    intro _ _ _ _ e h
    rw [updateLoop] at h
    cases h
    exact Or.inl rfl
  | succ n ih =>
    intro truncate maxIter numIter s e h
    rw [updateLoop] at h
    split at h
    · cases h
    · split at h
      · cases h
      · rcases bind_error h with hit | ⟨s', _, hrest⟩
        · exact updateIteration_error hit
        · exact ih hrest

theorem update_error {h : ConvexHull} {maxIter fuel e}
    (herr : update h maxIter fuel = .error e) : LoopFail e := by
  rw [update] at herr
  rcases bind_error herr with hrun | ⟨s, _, hrest⟩
  · rw [updateRun] at hrun
    rcases bind_error hrun with hlk | ⟨lk, _, hloop⟩
    · exact Or.inl (ofOption_error hlk)
    · exact updateLoop_error hloop
  · revert hrest
    split
    · intro hh; cases hh
    · intro hh; cases hh; exact Or.inr (Or.inr ⟨_, rfl⟩)

/-- The maximum axis-aligned extent found by the extent scan. -/
def maxExtent (points : List Vec3) : ℚ := (maxExtentDim points (computeExtremes points)).1

/-- The pair (maximum, minimum) of extreme vertex indices along the axis of
maximum extent. -/
def extremeLine (points : List Vec3) : ℕ × ℕ :=
  (maxIdxOfDim (computeExtremes points) (maxExtentDim points (computeExtremes points)).2,
   minIdxOfDim (computeExtremes points) (maxExtentDim points (computeExtremes points)).2)

/-- The maximum squared cross-product distance from the segment between the
two extreme vertices, as the third-vertex selection computes it. -/
def maxCrossSq (points : List Vec3) : ℚ :=
  (selectThird points (extremeLine points).1 (extremeLine points).2).1

/-- The index the third-vertex selection picks. -/
def thirdIdx (points : List Vec3) : ℕ :=
  (selectThird points (extremeLine points).1 (extremeLine points).2).2

/-- The maximum squared out-of-plane distance from the base triangle, as the
fourth-vertex selection computes it. -/
def maxPlaneDistSq (points : List Vec3) : ℚ :=
  (selectFourth points (extremeLine points).1 (extremeLine points).2 (thirdIdx points)).1

theorem initTetrahedronIndices_deg (points : List Vec3) :
    (initTetrahedronIndices points (computeExtremes points) =
        .error (.degenerateInput .coincident) ↔ maxExtent points = 0) ∧
    (initTetrahedronIndices points (computeExtremes points) =
        .error (.degenerateInput .collinear) ↔
      maxExtent points ≠ 0 ∧ maxCrossSq points = 0) ∧
    (initTetrahedronIndices points (computeExtremes points) =
        .error (.degenerateInput .coplanar) ↔
      maxExtent points ≠ 0 ∧ maxCrossSq points ≠ 0 ∧ maxPlaneDistSq points = 0) := by
  simp only [initTetrahedronIndices, maxExtent, maxCrossSq, maxPlaneDistSq, extremeLine,
    thirdIdx]
  by_cases h1 : (maxExtentDim points (computeExtremes points)).1 = 0
  · rw [if_pos h1]
    refine ⟨⟨fun _ => h1, fun _ => rfl⟩, ⟨fun hh => ?_, fun hh => absurd h1 hh.1⟩,
      ⟨fun hh => ?_, fun hh => absurd h1 hh.1⟩⟩
    · cases hh
    · cases hh
  · rw [if_neg h1]
    by_cases h2 : (selectThird points
        (maxIdxOfDim (computeExtremes points) (maxExtentDim points (computeExtremes points)).2)
        (minIdxOfDim (computeExtremes points)
          (maxExtentDim points (computeExtremes points)).2)).1 = 0
    · rw [if_pos h2]
      refine ⟨⟨fun hh => ?_, fun hh => absurd hh h1⟩, ⟨fun _ => ⟨h1, h2⟩, fun _ => rfl⟩,
        ⟨fun hh => ?_, fun hh => absurd h2 hh.2.1⟩⟩
      · cases hh
      · cases hh
    · rw [if_neg h2]
      by_cases h3 : (selectFourth points
          (maxIdxOfDim (computeExtremes points) (maxExtentDim points (computeExtremes points)).2)
          (minIdxOfDim (computeExtremes points) (maxExtentDim points (computeExtremes points)).2)
          (selectThird points
            (maxIdxOfDim (computeExtremes points)
              (maxExtentDim points (computeExtremes points)).2)
            (minIdxOfDim (computeExtremes points)
              (maxExtentDim points (computeExtremes points)).2)).2).1 = 0
      · rw [if_pos h3]
        refine ⟨⟨fun hh => ?_, fun hh => absurd hh h1⟩,
          ⟨fun hh => ?_, fun hh => absurd hh.2 h2⟩, ⟨fun _ => ⟨h1, h2, h3⟩, fun _ => rfl⟩⟩
        · cases hh
        · cases hh
      · rw [if_neg h3]
        refine ⟨⟨fun hh => ?_, fun hh => absurd hh h1⟩,
          ⟨fun hh => ?_, fun hh => absurd hh.2 h2⟩,
          ⟨fun hh => ?_, fun hh => absurd hh.2.2 h3⟩⟩
        · cases hh
        · cases hh
        · cases hh

theorem mkSimplexFace_error {points iset iFace e}
    (h : mkSimplexFace points iset iFace = .error e) :
    e = .roundOffError .faceVertices := by
  simp only [mkSimplexFace] at h
  split at h
  · cases h
  · cases h

theorem initTetrahedron_error_deg {points : List Vec3} {d : DegenerateInput} :
    initTetrahedron points = .error (.degenerateInput d) ↔
    initTetrahedronIndices points (computeExtremes points) =
      .error (.degenerateInput d) := by
  constructor
  · intro h
    simp only [initTetrahedron] at h
    rcases bind_error h with hidx | ⟨q, _, h⟩
    · exact hidx
    rcases bind_error h with h0 | ⟨f0, _, h⟩
    · cases mkSimplexFace_error h0
    rcases bind_error h with h1 | ⟨f1, _, h⟩
    · cases mkSimplexFace_error h1
    rcases bind_error h with h2 | ⟨f2, _, h⟩
    · cases mkSimplexFace_error h2
    rcases bind_error h with h3 | ⟨f3, _, h⟩
    · cases mkSimplexFace_error h3
    cases h
  · intro h
    simp only [initTetrahedron, h]
    rfl

theorem liftErr_error {α : Type} {x : Except ErrorKind α} {e : Fail}
    (h : liftErr x = .error e) : ∃ e0, x = .error e0 ∧ e = .err e0 := by
  revert h
  rw [liftErr.eq_def]
  cases x with
  | ok a => intro h; cases h
  | error e0 => intro h; cases h; exact ⟨e0, rfl, rfl⟩

theorem tryNew_deg_iff {points : List Vec3} {maxIter : Option ℕ} {fuel : ℕ}
    (hlen : 4 ≤ points.length) (d : DegenerateInput) :
    tryNew points maxIter fuel = .error (.err (.degenerateInput d)) ↔
    initTetrahedron points = .error (.degenerateInput d) := by
  rw [tryNew, if_neg (by omega), if_neg (by omega)]
  constructor
  · intro h
    rcases bind_error h with hl | ⟨c, _, h⟩
    · obtain ⟨e0, hx, he⟩ := liftErr_error hl
      cases he
      exact hx
    rcases bind_error h with hu | ⟨c2, _, h⟩
    · rcases update_error hu with h1 | h2 | ⟨m, h3⟩
      · cases h1
      · cases h2
      · cases h3
    · revert h
      split
      · intro hh; cases hh
      · intro hh; cases hh
  · intro h
    have : liftErr (initTetrahedron points) = .error (.err (.degenerateInput d)) := by
      rw [liftErr.eq_def, h]
    rw [show (liftErr (initTetrahedron points) >>= fun c =>
        update c maxIter fuel >>= fun c2 =>
        (if (removeUnusedPoints c2).points.length ≤ 3 then
          (.error (.err .degenerated) : M ConvexHull)
         else .ok (removeUnusedPoints c2))) =
        ((.error (.err (.degenerateInput d)) : M ConvexHull) >>= fun c =>
        update c maxIter fuel >>= fun c2 =>
        (if (removeUnusedPoints c2).points.length ≤ 3 then
          (.error (.err .degenerated) : M ConvexHull)
         else .ok (removeUnusedPoints c2))) from by rw [this]]
    rfl

/-- C5: the degenerate-input error ladder of `try_new`.  An empty input
yields `Empty` and one to three points yield `Degenerated`, in both cases
before any geometry runs; with at least four points, the call returns
`DegenerateInput(Coincident)` exactly when the maximum axis-aligned extent
is zero, `DegenerateInput(Collinear)` exactly when the extent is non-zero
but the maximum squared cross-product distance from the extreme segment is
zero, and `DegenerateInput(Coplanar)` exactly when both are non-zero but
the maximum out-of-plane distance from the base triangle is zero. -/
theorem C5_degenerate_ladder (points : List Vec3) (maxIter : Option ℕ) (fuel : ℕ) :
    (points.length = 0 → tryNew points maxIter fuel = .error (.err .empty)) ∧
    (points.length ≠ 0 → points.length ≤ 3 →
      tryNew points maxIter fuel = .error (.err .degenerated)) ∧
    (4 ≤ points.length →
      ((tryNew points maxIter fuel = .error (.err (.degenerateInput .coincident))) ↔
        maxExtent points = 0) ∧
      ((tryNew points maxIter fuel = .error (.err (.degenerateInput .collinear))) ↔
        maxExtent points ≠ 0 ∧ maxCrossSq points = 0) ∧
      ((tryNew points maxIter fuel = .error (.err (.degenerateInput .coplanar))) ↔
        maxExtent points ≠ 0 ∧ maxCrossSq points ≠ 0 ∧ maxPlaneDistSq points = 0)) := by
  refine ⟨?_, ?_, ?_⟩
  · intro h0
    rw [tryNew, if_pos h0]
  · intro h0 h3
    rw [tryNew, if_neg h0, if_pos h3]
  · intro hlen
    have hd := initTetrahedronIndices_deg points
    refine ⟨?_, ?_, ?_⟩
    · rw [tryNew_deg_iff hlen, initTetrahedron_error_deg]
      exact hd.1
    · rw [tryNew_deg_iff hlen, initTetrahedron_error_deg]
      exact hd.2.1
    · rw [tryNew_deg_iff hlen, initTetrahedron_error_deg]
      exact hd.2.2

/-- Four coincident points. -/
def c5coin : List Vec3 := [⟨1, 1, 1⟩, ⟨1, 1, 1⟩, ⟨1, 1, 1⟩, ⟨1, 1, 1⟩]

theorem C5_degenerate_ladder_witness :
    tryNew ([] : List Vec3) none 10 = .error (.err .empty) ∧
    tryNew c5coin none 10 = .error (.err (.degenerateInput .coincident)) :=
  ⟨(C5_degenerate_ladder [] none 10).1 (by decide),
   ((C5_degenerate_ladder c5coin none 10).2.2 (by decide)).1.mpr (by decide)⟩

/-- Determinant of three row vectors. -/
def det3 (u v w : Vec3) : ℚ := u.dot (v.cross w)

/-- The 4x4 orientation determinant over the homogeneous coordinates of the
four points (rows `(p, 1)`), expanded along the last column. -/
def det4Homog (a b c d : Vec3) : ℚ := -(det3 b c d) + det3 a c d - det3 a b d + det3 a b c

/-- First indexed vertex of a face. -/
def faceVertexA (pts : List Vec3) (f : Face) : Vec3 := getPt pts (f.indices.getD 0 0)

/-- Second indexed vertex of a face. -/
def faceVertexB (pts : List Vec3) (f : Face) : Vec3 := getPt pts (f.indices.getD 1 0)

/-- Third indexed vertex of a face. -/
def faceVertexC (pts : List Vec3) (f : Face) : Vec3 := getPt pts (f.indices.getD 2 0)

/-- The triangle normal recomputed from the indexed vertices of a face (not
the stored `normal` field). -/
def faceNormalVec (pts : List Vec3) (f : Face) : Vec3 :=
  triangleNormal (faceVertexA pts f) (faceVertexB pts f) (faceVertexC pts f)

/-- The query point lies on the plane spanned by the face vertices. -/
def onFacePlane (pts : List Vec3) (f : Face) (q : Vec3) : Prop :=
  ∃ β γ : ℚ, q.sub (faceVertexA pts f) =
    (Vec3.smul β ((faceVertexB pts f).sub (faceVertexA pts f))).add
      (Vec3.smul γ ((faceVertexC pts f).sub (faceVertexA pts f)))

/-- The query point lies strictly on the outward (normal) side of the plane
through the face vertices. -/
def strictlyOutside (pts : List Vec3) (f : Face) (q : Vec3) : Prop :=
  ∃ β γ δ : ℚ, 0 < δ ∧ q.sub (faceVertexA pts f) =
    ((Vec3.smul β ((faceVertexB pts f).sub (faceVertexA pts f))).add
      (Vec3.smul γ ((faceVertexC pts f).sub (faceVertexA pts f)))).add
      (Vec3.smul δ (faceNormalVec pts f))

/-- The query point lies strictly on the inward side of the plane through
the face vertices. -/
def strictlyInside (pts : List Vec3) (f : Face) (q : Vec3) : Prop :=
  ∃ β γ δ : ℚ, δ < 0 ∧ q.sub (faceVertexA pts f) =
    ((Vec3.smul β ((faceVertexB pts f).sub (faceVertexA pts f))).add
      (Vec3.smul γ ((faceVertexC pts f).sub (faceVertexA pts f)))).add
      (Vec3.smul δ (faceNormalVec pts f))

theorem lengthSq_pos {n : Vec3} (hn : n ≠ Vec3.zero) : 0 < Vec3.lengthSq n := by
  obtain ⟨n1, n2, n3⟩ := n
  simp only [Vec3.lengthSq, Vec3.dot, qadd_eq, qmul_eq]
  rcases eq_or_ne (n1 * n1 + n2 * n2 + n3 * n3) 0 with h0 | h0
  · exfalso
    apply hn
    have h1 : n1 = 0 := by nlinarith [sq_nonneg n1, sq_nonneg n2, sq_nonneg n3]
    have h2 : n2 = 0 := by nlinarith [sq_nonneg n1, sq_nonneg n2, sq_nonneg n3]
    have h3 : n3 = 0 := by nlinarith [sq_nonneg n1, sq_nonneg n2, sq_nonneg n3]
    simp [Vec3.zero, h1, h2, h3]
  · have : 0 ≤ n1 * n1 + n2 * n2 + n3 * n3 := by
      nlinarith [sq_nonneg n1, sq_nonneg n2, sq_nonneg n3]
    exact lt_of_le_of_ne this (Ne.symm h0)

/-- Every point decomposes over the face basis, with normal coordinate the
signed position divided by the squared normal length. -/
theorem decomp_exists (a b c q : Vec3) (hn : triangleNormal a b c ≠ Vec3.zero) :
    ∃ β γ : ℚ, q.sub a =
      ((Vec3.smul β (b.sub a)).add (Vec3.smul γ (c.sub a))).add
        (Vec3.smul (qneg (orient3d a b c q) / Vec3.lengthSq (triangleNormal a b c))
          (triangleNormal a b c)) := by
  have hL := lengthSq_pos hn
  obtain ⟨a1, a2, a3⟩ := a
  obtain ⟨b1, b2, b3⟩ := b
  obtain ⟨c1, c2, c3⟩ := c
  obtain ⟨q1, q2, q3⟩ := q
  simp only [triangleNormal, Vec3.sub, Vec3.cross, Vec3.dot, Vec3.lengthSq, Vec3.smul,
    Vec3.add, orient3d, qadd_eq, qsub_eq, qmul_eq, qneg_eq] at hL ⊢
  refine ⟨det3 (Vec3.mk (q1-a1) (q2-a2) (q3-a3)) (Vec3.mk (c1-a1) (c2-a2) (c3-a3))
      (triangleNormal ⟨a1,a2,a3⟩ ⟨b1,b2,b3⟩ ⟨c1,c2,c3⟩) /
        Vec3.lengthSq (triangleNormal ⟨a1,a2,a3⟩ ⟨b1,b2,b3⟩ ⟨c1,c2,c3⟩),
    det3 (Vec3.mk (b1-a1) (b2-a2) (b3-a3)) (Vec3.mk (q1-a1) (q2-a2) (q3-a3))
      (triangleNormal ⟨a1,a2,a3⟩ ⟨b1,b2,b3⟩ ⟨c1,c2,c3⟩) /
        Vec3.lengthSq (triangleNormal ⟨a1,a2,a3⟩ ⟨b1,b2,b3⟩ ⟨c1,c2,c3⟩), ?_⟩
  simp only [triangleNormal, Vec3.sub, Vec3.cross, Vec3.dot, Vec3.lengthSq, det3,
    qadd_eq, qsub_eq, qmul_eq, qneg_eq]
  have hL2 : ((b2 - a2) * (c3 - a3) - (b3 - a3) * (c2 - a2)) *
        ((b2 - a2) * (c3 - a3) - (b3 - a3) * (c2 - a2)) +
      ((b3 - a3) * (c1 - a1) - (b1 - a1) * (c3 - a3)) *
        ((b3 - a3) * (c1 - a1) - (b1 - a1) * (c3 - a3)) +
      ((b1 - a1) * (c2 - a2) - (b2 - a2) * (c1 - a1)) *
        ((b1 - a1) * (c2 - a2) - (b2 - a2) * (c1 - a1)) ≠ 0 := ne_of_gt hL
  rw [Vec3.mk.injEq]
  refine ⟨?_, ?_, ?_⟩ <;> (field_simp; ring)

theorem smul_zero_vec (v : Vec3) : Vec3.smul 0 v = Vec3.zero := by
  obtain ⟨v1, v2, v3⟩ := v
  simp [Vec3.smul, Vec3.zero, qmul_eq]

theorem add_zero_vec (v : Vec3) : v.add Vec3.zero = v := by
  obtain ⟨v1, v2, v3⟩ := v
  simp [Vec3.add, Vec3.zero, qadd_eq]

/-- Any decomposition over the face basis determines the signed position as
the normal coordinate scaled by the squared normal length. -/
theorem pos_eq_delta_L (a b c q : Vec3) (β γ δ : ℚ)
    (heq : q.sub a = ((Vec3.smul β (b.sub a)).add (Vec3.smul γ (c.sub a))).add
      (Vec3.smul δ (triangleNormal a b c))) :
    qneg (orient3d a b c q) = δ * Vec3.lengthSq (triangleNormal a b c) := by
  obtain ⟨a1, a2, a3⟩ := a
  obtain ⟨b1, b2, b3⟩ := b
  obtain ⟨c1, c2, c3⟩ := c
  obtain ⟨q1, q2, q3⟩ := q
  simp only [triangleNormal, Vec3.sub, Vec3.cross, Vec3.dot, Vec3.lengthSq, Vec3.smul,
    Vec3.add, orient3d, qadd_eq, qsub_eq, qmul_eq, qneg_eq, Vec3.mk.injEq] at heq ⊢
  obtain ⟨h1, h2, h3⟩ := heq
  linear_combination ((b2 - a2) * (c3 - a3) - (b3 - a3) * (c2 - a2)) * h1 +
    ((b3 - a3) * (c1 - a1) - (b1 - a1) * (c3 - a3)) * h2 +
    ((b1 - a1) * (c2 - a2) - (b2 - a2) * (c1 - a1)) * h3

theorem orient_det4 (a b c q : Vec3) : qneg (orient3d a b c q) = -(det4Homog a b c q) := by
  obtain ⟨a1, a2, a3⟩ := a
  obtain ⟨b1, b2, b3⟩ := b
  obtain ⟨c1, c2, c3⟩ := c
  obtain ⟨q1, q2, q3⟩ := q
  simp only [det4Homog, det3, triangleNormal, Vec3.sub, Vec3.cross, Vec3.dot, orient3d,
    qadd_eq, qsub_eq, qmul_eq, qneg_eq]
  ring

/-- C6: the signed position is exactly minus the homogeneous 4x4 orientation
determinant of the three indexed face vertices and the query point; its sign
classifies the query point against the oriented plane through those
vertices (positive outward, zero on the plane, negative inward); and it
depends only on the index list of the face, not on the stored normal, plane
offset, neighbor list or conflict list. -/
theorem C6_signed_position (pts : List Vec3) (f : Face) (q : Vec3)
    (hn : faceNormalVec pts f ≠ Vec3.zero) :
    (positionFromFaceAt pts f q =
      -(det4Homog (faceVertexA pts f) (faceVertexB pts f) (faceVertexC pts f) q)) ∧
    (0 < positionFromFaceAt pts f q ↔ strictlyOutside pts f q) ∧
    (positionFromFaceAt pts f q = 0 ↔ onFacePlane pts f q) ∧
    (positionFromFaceAt pts f q < 0 ↔ strictlyInside pts f q) ∧
    (∀ f' : Face, f'.indices = f.indices →
      positionFromFaceAt pts f' q = positionFromFaceAt pts f q) := by
  have hA : positionFromFaceAt pts f q =
      qneg (orient3d (faceVertexA pts f) (faceVertexB pts f) (faceVertexC pts f) q) := rfl
  have hnormal : faceNormalVec pts f =
      triangleNormal (faceVertexA pts f) (faceVertexB pts f) (faceVertexC pts f) := rfl
  rw [hnormal] at hn
  refine ⟨by rw [hA, orient_det4], ?_, ?_, ?_, ?_⟩
  · rw [hA]
    constructor
    · intro hpos
      obtain ⟨β, γ, hd⟩ := decomp_exists _ _ _ q hn
      exact ⟨β, γ, _, div_pos hpos (lengthSq_pos hn), hd⟩
    · rintro ⟨β, γ, δ, hδ, heq⟩
      rw [pos_eq_delta_L _ _ _ q β γ δ heq]
      exact mul_pos hδ (lengthSq_pos hn)
  · rw [hA]
    constructor
    · intro hzero
      obtain ⟨β, γ, hd⟩ := decomp_exists _ _ _ q hn
      rw [hzero, zero_div, smul_zero_vec, add_zero_vec] at hd
      exact ⟨β, γ, hd⟩
    · rintro ⟨β, γ, heq⟩
      have heq3 : q.sub (faceVertexA pts f) =
          ((Vec3.smul β ((faceVertexB pts f).sub (faceVertexA pts f))).add
            (Vec3.smul γ ((faceVertexC pts f).sub (faceVertexA pts f)))).add
          (Vec3.smul 0 (triangleNormal (faceVertexA pts f) (faceVertexB pts f)
            (faceVertexC pts f))) := by
        rw [smul_zero_vec, add_zero_vec]
        exact heq
      rw [pos_eq_delta_L _ _ _ q β γ 0 heq3, zero_mul]
  · rw [hA]
    constructor
    · intro hneg
      obtain ⟨β, γ, hd⟩ := decomp_exists _ _ _ q hn
      exact ⟨β, γ, _, div_neg_of_neg_of_pos hneg (lengthSq_pos hn), hd⟩
    · rintro ⟨β, γ, δ, hδ, heq⟩
      rw [pos_eq_delta_L _ _ _ q β γ δ heq]
      exact mul_neg_of_neg_of_pos hδ (lengthSq_pos hn)
  · intro f' hf
    simp only [positionFromFaceAt, hf]

/-- Points of the signed-position witness. -/
def w6pts : List Vec3 := [⟨0, 0, 0⟩, ⟨1, 0, 0⟩, ⟨0, 1, 0⟩]

/-- A face over the witness triangle. -/
def w6face : Face :=
  { indices := [0, 1, 2]
    outsidePoints := []
    neighborFaces := []
    normal := ⟨0, 0, 1⟩
    distanceFromOrigin := 0 }

theorem C6_signed_position_witness :
    positionFromFaceAt w6pts w6face ⟨0, 0, 5⟩ =
      -(det4Homog (faceVertexA w6pts w6face) (faceVertexB w6pts w6face)
        (faceVertexC w6pts w6face) ⟨0, 0, 5⟩) ∧
    (0 < positionFromFaceAt w6pts w6face ⟨0, 0, 5⟩ ↔
      strictlyOutside w6pts w6face ⟨0, 0, 5⟩) :=
  have t := C6_signed_position w6pts w6face ⟨0, 0, 5⟩ (by decide)
  ⟨t.1, t.2.1⟩

/-- The first components of a filterMap whose function returns pairs keyed by
its argument form a sublist of the input. -/
theorem filterMap_fst_sublist {g : ℕ → Option (ℕ × ℚ)}
    (hg : ∀ j p, g j = some p → p.1 = j) :
    ∀ l : List ℕ, ((l.filterMap g).map Prod.fst).Sublist l := by
  intro l
  induction l with
  | nil => simp
  | cons a t ih =>
    rw [List.filterMap_cons]
    cases hga : g a with
    | none => exact ih.cons a
    | some p =>
      rw [List.map_cons, hg a p hga]
      exact ih.cons₂ a

/-- Membership in a seeded conflict list, for a face whose list starts empty. -/
theorem seedFace_mem (points : List Vec3) (assigned : List ℕ) (face : Face)
    (hinit : face.outsidePoints = []) (i : ℕ) (q : ℚ) :
    (i, q) ∈ (seedFace points assigned face).outsidePoints ↔
      i < points.length ∧ i ∉ assigned ∧
      q = positionFromFace points face i ∧ 0 < positionFromFace points face i := by
  simp only [seedFace, hinit, List.nil_append, List.mem_filterMap, List.mem_range]
  constructor
  · rintro ⟨j, hj, hg⟩
    by_cases ha : j ∈ assigned
    · rw [if_pos ha] at hg; exact absurd hg (by simp)
    · rw [if_neg ha] at hg
      by_cases hp : qlt 0 (positionFromFace points face j) = true
      · rw [if_pos hp] at hg
        rw [Option.some.injEq, Prod.mk.injEq] at hg
        obtain ⟨rfl, rfl⟩ := hg
        exact ⟨hj, ha, rfl, (qlt_iff _ _).mp hp⟩
      · rw [if_neg hp] at hg; exact absurd hg (by simp)
  · rintro ⟨hi, ha, rfl, hp⟩
    exact ⟨i, hi, by rw [if_neg ha, if_pos ((qlt_iff _ _).mpr hp)]⟩

/-- The seeded conflict list of an initially empty face lists each point at
most once. -/
theorem seedFace_nodup (points : List Vec3) (assigned : List ℕ) (face : Face)
    (hinit : face.outsidePoints = []) :
    (((seedFace points assigned face).outsidePoints).map Prod.fst).Nodup := by
  simp only [seedFace, hinit, List.nil_append]
  refine List.Nodup.sublist (filterMap_fst_sublist ?_ _) (List.nodup_range _)
  intro j p hg
  by_cases ha : j ∈ assigned
  · rw [if_pos ha] at hg; exact absurd hg (by simp)
  · rw [if_neg ha] at hg
    by_cases hp : qlt 0 (positionFromFace points face j) = true
    · rw [if_pos hp] at hg
      rw [Option.some.injEq] at hg
      rw [← hg]
    · rw [if_neg hp] at hg; exact absurd hg (by simp)

/-- The per-conflict-point step of the redistribution scan, named for
reasoning (identical to the local function inside `collectOrphans`). -/
def orphanStep (points : List Vec3) (assigned : List ℕ) (face : Face)
    (acc : List (ℕ × ℚ) × List ℕ) (op : ℕ × ℚ) : List (ℕ × ℚ) × List ℕ :=
  if op.1 ∈ assigned ∨ op.1 ∈ acc.2 then acc
  else
    let checked := acc.2 ++ [op.1]
    let pos := positionFromFace points face op.1
    if qlt 0 pos then (acc.1 ++ [(op.1, pos)], checked) else (acc.1, checked)

theorem collectOrphans_eq (points : List Vec3) (assigned : List ℕ) (face : Face)
    (visibleFaces : List Face) :
    collectOrphans points assigned face visibleFaces =
      { face with outsidePoints := sortByPos (face.outsidePoints ++
          (visibleFaces.foldl (fun acc vf =>
            vf.outsidePoints.foldl (orphanStep points assigned face) acc) ([], [])).1) } := rfl

theorem orphanStep_eq (points : List Vec3) (assigned : List ℕ) (face : Face)
    (st : List (ℕ × ℚ) × List ℕ) (op : ℕ × ℚ) :
    orphanStep points assigned face st op =
      if op.1 ∈ assigned ∨ op.1 ∈ st.2 then st
      else if qlt 0 (positionFromFace points face op.1) then
        (st.1 ++ [(op.1, positionFromFace points face op.1)], st.2 ++ [op.1])
      else (st.1, st.2 ++ [op.1]) := rfl

/-- The nested scan over the visible faces equals the scan over the
concatenation of their conflict lists. -/
theorem orphanFold_flatten (points : List Vec3) (assigned : List ℕ) (face : Face) :
    ∀ (visibleFaces : List Face) (st : List (ℕ × ℚ) × List ℕ),
    visibleFaces.foldl (fun acc vf =>
        vf.outsidePoints.foldl (orphanStep points assigned face) acc) st =
      ((visibleFaces.map (fun vf => vf.outsidePoints)).flatten).foldl
        (orphanStep points assigned face) st := by
  intro visibleFaces
  induction visibleFaces with
  | nil => intro st; rfl
  | cons vf t ih =>
    intro st
    simp only [List.foldl_cons, List.map_cons, List.flatten_cons, List.foldl_append]
    exact ih _

/-- Membership in the checked set after the redistribution scan. -/
theorem orphanFold_checked (points : List Vec3) (assigned : List ℕ) (face : Face) :
    ∀ (ops : List (ℕ × ℚ)) (st : List (ℕ × ℚ) × List ℕ) (i : ℕ),
    (i ∈ (ops.foldl (orphanStep points assigned face) st).2 ↔
      i ∈ st.2 ∨ (i ∉ assigned ∧ ∃ q0, (i, q0) ∈ ops)) := by
  intro ops
  induction ops with
  | nil => intro st i; simp
  | cons op t ih =>
    intro st i
    rw [List.foldl_cons, orphanStep_eq]
    by_cases hg : op.1 ∈ assigned ∨ op.1 ∈ st.2
    · rw [if_pos hg, ih]
      constructor
      · rintro (h | ⟨hna, q0, hq0⟩)
        · exact Or.inl h
        · exact Or.inr ⟨hna, q0, List.mem_cons_of_mem _ hq0⟩
      · rintro (h | ⟨hna, q0, hq0⟩)
        · exact Or.inl h
        · rcases List.mem_cons.mp hq0 with heq | hmem
          · have hi : i = op.1 := by rw [← heq]
            rcases hg with hga | hgc
            · exact absurd (hi ▸ hga) hna
            · exact Or.inl (hi ▸ hgc)
          · exact Or.inr ⟨hna, q0, hmem⟩
    · rw [if_neg hg]
      push_neg at hg
      have hmm : ∀ (s1 : List (ℕ × ℚ)),
          (i ∈ (t.foldl (orphanStep points assigned face) (s1, st.2 ++ [op.1])).2 ↔
            i ∈ st.2 ∨ (i ∉ assigned ∧ ∃ q0, (i, q0) ∈ op :: t)) := by
        intro s1
        rw [ih]
        constructor
        · rintro (h | ⟨hna, q0, hq0⟩)
          · rcases List.mem_append.mp h with h2 | h2
            · exact Or.inl h2
            · have hi : i = op.1 := List.mem_singleton.mp h2
              subst hi
              exact Or.inr ⟨hg.1, op.2, List.mem_cons_self op t⟩
          · exact Or.inr ⟨hna, q0, List.mem_cons_of_mem _ hq0⟩
        · rintro (h | ⟨hna, q0, hq0⟩)
          · exact Or.inl (List.mem_append_left _ h)
          · rcases List.mem_cons.mp hq0 with heq | hmem
            · have hi : i = op.1 := by rw [← heq]
              exact Or.inl (List.mem_append_right _ (List.mem_singleton.mpr hi))
            · exact Or.inr ⟨hna, q0, hmem⟩
      split
      · exact hmm _
      · exact hmm _

/-- Membership in the collected-orphans list after the redistribution scan. -/
theorem orphanFold_acc (points : List Vec3) (assigned : List ℕ) (face : Face) :
    ∀ (ops : List (ℕ × ℚ)) (st : List (ℕ × ℚ) × List ℕ) (i : ℕ) (q : ℚ),
    ((i, q) ∈ (ops.foldl (orphanStep points assigned face) st).1 ↔
      (i, q) ∈ st.1 ∨ (i ∉ assigned ∧ i ∉ st.2 ∧ (∃ q0, (i, q0) ∈ ops) ∧
        q = positionFromFace points face i ∧ 0 < positionFromFace points face i)) := by
  intro ops
  induction ops with
  | nil => intro st i q; simp
  | cons op t ih =>
    intro st i q
    rw [List.foldl_cons, orphanStep_eq]
    by_cases hg : op.1 ∈ assigned ∨ op.1 ∈ st.2
    · rw [if_pos hg, ih]
      constructor
      · rintro (h | ⟨hna, hnc, ⟨q0, hq0⟩, hq, hp⟩)
        · exact Or.inl h
        · exact Or.inr ⟨hna, hnc, ⟨q0, List.mem_cons_of_mem _ hq0⟩, hq, hp⟩
      · rintro (h | ⟨hna, hnc, ⟨q0, hq0⟩, hq, hp⟩)
        · exact Or.inl h
        · rcases List.mem_cons.mp hq0 with heq | hmem
          · have hi : i = op.1 := by rw [← heq]
            rcases hg with hga | hgc
            · exact absurd (hi ▸ hga) hna
            · exact absurd (hi ▸ hgc) hnc
          · exact Or.inr ⟨hna, hnc, ⟨q0, hmem⟩, hq, hp⟩
    · rw [if_neg hg]
      push_neg at hg
      by_cases hp0 : qlt 0 (positionFromFace points face op.1) = true
      · rw [if_pos hp0, ih]
        have hp0q : 0 < positionFromFace points face op.1 := (qlt_iff _ _).mp hp0
        constructor
        · rintro (h | ⟨hna, hnc, ⟨q0, hq0⟩, hq, hp⟩)
          · rcases List.mem_append.mp h with h2 | h2
            · exact Or.inl h2
            · have heq : (i, q) = (op.1, positionFromFace points face op.1) :=
                List.mem_singleton.mp h2
              rw [Prod.mk.injEq] at heq
              obtain ⟨hi, hqv⟩ := heq
              subst hi
              exact Or.inr ⟨hg.1, hg.2, ⟨op.2, List.mem_cons_self op t⟩, hqv, hp0q⟩
          · have hnc1 : i ∉ st.2 := fun hc => hnc (List.mem_append_left _ hc)
            exact Or.inr ⟨hna, hnc1, ⟨q0, List.mem_cons_of_mem _ hq0⟩, hq, hp⟩
        · rintro (h | ⟨hna, hnc, ⟨q0, hq0⟩, hq, hp⟩)
          · exact Or.inl (List.mem_append_left _ h)
          · by_cases hi : i = op.1
            · subst hi
              refine Or.inl (List.mem_append_right _ (List.mem_singleton.mpr ?_))
              rw [hq]
            · refine Or.inr ⟨hna, ?_, ⟨q0, ?_⟩, hq, hp⟩
              · intro hc
                rcases List.mem_append.mp hc with hc2 | hc2
                · exact hnc hc2
                · exact hi (List.mem_singleton.mp hc2)
              · rcases List.mem_cons.mp hq0 with heq | hmem
                · exact absurd (by rw [← heq]) hi
                · exact hmem
      · rw [if_neg hp0, ih]
        have hp0q : ¬ (0 < positionFromFace points face op.1) := by
          intro hc; exact hp0 ((qlt_iff _ _).mpr hc)
        constructor
        · rintro (h | ⟨hna, hnc, ⟨q0, hq0⟩, hq, hp⟩)
          · exact Or.inl h
          · have hnc1 : i ∉ st.2 := fun hc => hnc (List.mem_append_left _ hc)
            exact Or.inr ⟨hna, hnc1, ⟨q0, List.mem_cons_of_mem _ hq0⟩, hq, hp⟩
        · rintro (h | ⟨hna, hnc, ⟨q0, hq0⟩, hq, hp⟩)
          · exact Or.inl h
          · by_cases hi : i = op.1
            · rw [hi] at hp
              exact absurd hp hp0q
            · refine Or.inr ⟨hna, ?_, ⟨q0, ?_⟩, hq, hp⟩
              · intro hc
                rcases List.mem_append.mp hc with hc2 | hc2
                · exact hnc hc2
                · exact hi (List.mem_singleton.mp hc2)
              · rcases List.mem_cons.mp hq0 with heq | hmem
                · exact absurd (by rw [← heq]) hi
                · exact hmem

/-- The scan lists each point at most once, and every listed point is in the
checked set. -/
theorem orphanFold_nodup (points : List Vec3) (assigned : List ℕ) (face : Face) :
    ∀ (ops : List (ℕ × ℚ)) (st : List (ℕ × ℚ) × List ℕ),
    ((st.1.map Prod.fst).Nodup ∧ ∀ j ∈ st.1.map Prod.fst, j ∈ st.2) →
    (((ops.foldl (orphanStep points assigned face) st).1.map Prod.fst).Nodup ∧
      ∀ j ∈ (ops.foldl (orphanStep points assigned face) st).1.map Prod.fst,
        j ∈ (ops.foldl (orphanStep points assigned face) st).2) := by
  intro ops
  induction ops with
  | nil => intro st h; exact h
  | cons op t ih =>
    intro st h
    rw [List.foldl_cons, orphanStep_eq]
    by_cases hg : op.1 ∈ assigned ∨ op.1 ∈ st.2
    · rw [if_pos hg]; exact ih st h
    · rw [if_neg hg]
      push_neg at hg
      by_cases hp0 : qlt 0 (positionFromFace points face op.1) = true
      · rw [if_pos hp0]
        refine ih _ ⟨?_, ?_⟩
        · simp only [List.map_append, List.map_cons, List.map_nil]
          rw [List.nodup_append]
          refine ⟨h.1, List.nodup_singleton _, ?_⟩
          intro a ha hb
          rw [List.mem_singleton] at hb
          exact hg.2 (hb ▸ h.2 a ha)
        · intro j hj
          simp only [List.map_append, List.map_cons, List.map_nil, List.mem_append,
            List.mem_singleton] at hj
          rcases hj with hj | hj
          · exact List.mem_append_left _ (h.2 j hj)
          · exact List.mem_append_right _ (List.mem_singleton.mpr hj)
      · rw [if_neg hp0]
        refine ih _ ⟨h.1, ?_⟩
        intro j hj
        exact List.mem_append_left _ (h.2 j hj)

theorem insertSorted_perm (x : ℕ × ℚ) : ∀ l : List (ℕ × ℚ), (insertSorted x l).Perm (x :: l)
  | [] => List.Perm.refl _
  | y :: ys => by
    rw [insertSorted]
    cases hq : qlt x.2 y.2 with
    | true =>
      rw [if_pos rfl]
    | false =>
      rw [if_neg (by simp)]
      exact ((insertSorted_perm x ys).cons y).trans (List.Perm.swap x y ys)

/-- The conflict-list sort is a permutation. -/
theorem sortByPos_perm (l : List (ℕ × ℚ)) : (sortByPos l).Perm l := by
  have h : ∀ (xs acc : List (ℕ × ℚ)),
      (xs.foldl (fun acc x => insertSorted x acc) acc).Perm (acc ++ xs) := by
    intro xs
    induction xs with
    | nil => intro acc; simp
    | cons x t ih =>
      intro acc
      rw [List.foldl_cons]
      refine (ih (insertSorted x acc)).trans ?_
      refine ((insertSorted_perm x acc).append_right t).trans ?_
      exact List.perm_middle.symm
  simpa using h l []

/-- Membership in the conflict list produced by the redistribution step, for
a new face whose list starts empty: exactly the unassigned points seen by
the new face that appear on some visible face conflict list, each paired
with its exact signed position. -/
theorem collectOrphans_mem (points : List Vec3) (assigned : List ℕ) (face : Face)
    (visibleFaces : List Face) (hinit : face.outsidePoints = []) (i : ℕ) (q : ℚ) :
    ((i, q) ∈ (collectOrphans points assigned face visibleFaces).outsidePoints ↔
      i ∉ assigned ∧ (∃ vf ∈ visibleFaces, ∃ q0, (i, q0) ∈ vf.outsidePoints) ∧
      q = positionFromFace points face i ∧ 0 < positionFromFace points face i) := by
  rw [collectOrphans_eq]
  simp only [hinit, List.nil_append]
  rw [(sortByPos_perm _).mem_iff, orphanFold_flatten, orphanFold_acc]
  constructor
  · intro h
    rcases h with h | h
    · exact absurd h (List.not_mem_nil _)
    · obtain ⟨hna, hni, ⟨q0, hq0⟩, hq, hp⟩ := h
      rw [List.mem_flatten] at hq0
      obtain ⟨sl, hs, hmem⟩ := hq0
      rw [List.mem_map] at hs
      obtain ⟨vf, hvf, hfe⟩ := hs
      subst hfe
      exact ⟨hna, ⟨vf, hvf, q0, hmem⟩, hq, hp⟩
  · rintro ⟨hna, ⟨vf, hvf, q0, hq0⟩, hq, hp⟩
    refine Or.inr ⟨hna, List.not_mem_nil i, ⟨q0, ?_⟩, hq, hp⟩
    rw [List.mem_flatten]
    exact ⟨vf.outsidePoints, List.mem_map.mpr ⟨vf, hvf, rfl⟩, hq0⟩

/-- The redistributed conflict list of an initially empty face lists each
point at most once. -/
theorem collectOrphans_nodup (points : List Vec3) (assigned : List ℕ) (face : Face)
    (visibleFaces : List Face) (hinit : face.outsidePoints = []) :
    (((collectOrphans points assigned face visibleFaces).outsidePoints).map Prod.fst).Nodup := by
  rw [collectOrphans_eq]
  simp only [hinit, List.nil_append]
  refine (((sortByPos_perm _).map Prod.fst).nodup_iff).mpr ?_
  rw [orphanFold_flatten]
  exact (orphanFold_nodup points assigned face _ ([], []) (by simp)).1

/-- C2, amended theorem: a face whose conflict list starts empty receives,
from the seeding pass, exactly the unassigned input points it sees (signed
position strictly positive) — independent of any other face — and, from the
redistribution step, exactly the unassigned points it sees among those on
the conflict lists of the visible faces — independent of the other new
faces.  In both cases each point appears at most once and is paired with
its exact signed position, but nothing prevents several faces from listing
the same point. -/
theorem C2_amended (points : List Vec3) (assigned : List ℕ) (face : Face)
    (visibleFaces : List Face) (hinit : face.outsidePoints = []) :
    ((∀ i q, (i, q) ∈ (seedFace points assigned face).outsidePoints ↔
        i < points.length ∧ i ∉ assigned ∧
        q = positionFromFace points face i ∧ 0 < positionFromFace points face i) ∧
      (((seedFace points assigned face).outsidePoints).map Prod.fst).Nodup) ∧
    ((∀ i q, (i, q) ∈ (collectOrphans points assigned face visibleFaces).outsidePoints ↔
        i ∉ assigned ∧ (∃ vf ∈ visibleFaces, ∃ q0, (i, q0) ∈ vf.outsidePoints) ∧
        q = positionFromFace points face i ∧ 0 < positionFromFace points face i) ∧
      (((collectOrphans points assigned face visibleFaces).outsidePoints).map Prod.fst).Nodup) :=
  ⟨⟨fun i q => seedFace_mem points assigned face hinit i q,
    seedFace_nodup points assigned face hinit⟩,
   ⟨fun i q => collectOrphans_mem points assigned face visibleFaces hinit i q,
    collectOrphans_nodup points assigned face visibleFaces hinit⟩⟩

/-- Points of the conflict-list witness: a base triangle and a point above it. -/
def w2pts : List Vec3 := [⟨0, 0, 0⟩, ⟨1, 0, 0⟩, ⟨0, 1, 0⟩, ⟨0, 0, 5⟩]

/-- A face of the conflict-list witness with an empty conflict list. -/
def w2face : Face :=
  { indices := [0, 1, 2]
    outsidePoints := []
    neighborFaces := []
    normal := ⟨0, 0, 1⟩
    distanceFromOrigin := 0 }

/-- A visible face of the conflict-list witness carrying one conflict point. -/
def w2vf : Face :=
  { indices := [0, 2, 1]
    outsidePoints := [(3, 1)]
    neighborFaces := []
    normal := ⟨0, 0, -1⟩
    distanceFromOrigin := 0 }

theorem C2_amended_witness :
    ((3, positionFromFace w2pts w2face 3) ∈ (seedFace w2pts [0, 1, 2] w2face).outsidePoints ↔
      3 < w2pts.length ∧ 3 ∉ [0, 1, 2] ∧
      positionFromFace w2pts w2face 3 = positionFromFace w2pts w2face 3 ∧
      0 < positionFromFace w2pts w2face 3) ∧
    ((3, positionFromFace w2pts w2face 3) ∈
        (collectOrphans w2pts [0, 1, 2] w2face [w2vf]).outsidePoints ↔
      3 ∉ [0, 1, 2] ∧ (∃ vf ∈ [w2vf], ∃ q0, (3, q0) ∈ vf.outsidePoints) ∧
      positionFromFace w2pts w2face 3 = positionFromFace w2pts w2face 3 ∧
      0 < positionFromFace w2pts w2face 3) :=
  have t := C2_amended w2pts [0, 1, 2] w2face [w2vf] rfl
  ⟨t.1.1 3 (positionFromFace w2pts w2face 3), t.2.1 3 (positionFromFace w2pts w2face 3)⟩

/-- The ridge one unvisible neighbor contributes, following the description
of the specification: the intersection of the distinct vertex indices of
the neighbor with those of the visible face, paired with the neighbor key
(`none` for a visible or missing neighbor). -/
def ridgeOf (faces : List (ℕ × Face)) (visible ptsOfVisible : List ℕ) (nk : ℕ) :
    Option (List ℕ × ℕ) :=
  if nk ∈ visible then none
  else
    match facesFind faces nk with
    | none => none
    | some unvis =>
      some ((dedupKeepFirst unvis.indices).filter (fun i => i ∈ ptsOfVisible), nk)

/-- The horizon described by the specification: for every visible face and
every one of its unvisible neighbors, in order, the shared ridge paired
with the neighbor key. -/
def horizonSpecList (visible : List ℕ) (faces : List (ℕ × Face)) : List (List ℕ × ℕ) :=
  visible.flatMap (fun vk =>
    match facesFind faces vk with
    | none => []
    | some vf => vf.neighborFaces.filterMap
        (ridgeOf faces visible (dedupKeepFirst vf.indices)))

/-- All checks of the horizon pass: every visible face is present with three
distinct vertices, and every unvisible neighbor is present with three
distinct vertices and a two-vertex shared ridge. -/
def horizonChecks (visible : List ℕ) (faces : List (ℕ × Face)) : Bool :=
  visible.all (fun vk =>
    match facesFind faces vk with
    | none => false
    | some vf =>
      (dedupKeepFirst vf.indices).length == 3 &&
      vf.neighborFaces.all (fun nk =>
        decide (nk ∈ visible) ||
        match facesFind faces nk with
        | none => false
        | some uf =>
          (dedupKeepFirst uf.indices).length == 3 &&
          ((dedupKeepFirst uf.indices).filter
            (fun i => i ∈ dedupKeepFirst vf.indices)).length == 2))

theorem horizonOfNeighbor_ok_val {faces : List (ℕ × Face)}
    {visible ptsOfVisible : List ℕ} {nk : ℕ} {o : Option (List ℕ × ℕ)}
    (h : horizonOfNeighbor faces visible ptsOfVisible nk = .ok o) :
    o = ridgeOf faces visible ptsOfVisible nk := by
  simp only [horizonOfNeighbor] at h
  rw [ridgeOf]
  split at h
  · rename_i hv
    rw [if_pos hv]
    cases h; rfl
  · rename_i hv
    rw [if_neg hv]
    revert h
    split
    · intro h; cases h
    · split
      · intro h; cases h
      · split
        · intro h; cases h
        · intro h; cases h; rfl

theorem horizonOfNeighbor_ok_exists {faces : List (ℕ × Face)}
    {visible ptsOfVisible : List ℕ} {nk : ℕ} :
    (∃ o, horizonOfNeighbor faces visible ptsOfVisible nk = .ok o) ↔
      (decide (nk ∈ visible) ||
        match facesFind faces nk with
        | none => false
        | some uf =>
          (dedupKeepFirst uf.indices).length == 3 &&
          ((dedupKeepFirst uf.indices).filter (fun i => i ∈ ptsOfVisible)).length == 2) = true := by
  simp only [horizonOfNeighbor]
  split
  · rename_i hv
    simp [hv]
  · rename_i hv
    simp only [decide_eq_false hv, Bool.false_or]
    split
    · constructor
      · rintro ⟨o, ho⟩; cases ho
      · intro h; cases h
    · rename_i uf hf
      by_cases h3 : (dedupKeepFirst uf.indices).length = 3
      · rw [if_neg (by simp [h3])]
        by_cases h2 : ((dedupKeepFirst uf.indices).filter (fun i => i ∈ ptsOfVisible)).length = 2
        · rw [if_neg (by simp [h2])]
          simp [h3, h2]
        · rw [if_pos (by simp [h2])]
          simp only [Bool.and_eq_true, beq_iff_eq]
          constructor
          · rintro ⟨o, ho⟩; cases ho
          · rintro ⟨_, hc⟩; exact absurd hc h2
      · rw [if_pos (by simp [h3])]
        simp only [Bool.and_eq_true, beq_iff_eq]
        constructor
        · rintro ⟨o, ho⟩; cases ho
        · rintro ⟨hc, _⟩; exact absurd hc h3

theorem horizonFold_ok (faces : List (ℕ × Face)) (visible ptsOfVisible : List ℕ) :
    ∀ (l : List ℕ) (acc r : List (List ℕ × ℕ)),
    ((l.foldlM (fun acc nk => do
        match ← horizonOfNeighbor faces visible ptsOfVisible nk with
        | none => pure acc
        | some entry => pure (acc ++ [entry])) acc) = .ok r ↔
      ((∀ nk ∈ l, ∃ o, horizonOfNeighbor faces visible ptsOfVisible nk = .ok o) ∧
        r = acc ++ l.filterMap (ridgeOf faces visible ptsOfVisible))) := by
  intro l
  induction l with
  | nil =>
    intro acc r
    simp only [List.foldlM_nil, List.filterMap_nil, List.append_nil]
    constructor
    · intro h
      cases h
      exact ⟨fun nk h => absurd h (List.not_mem_nil nk), rfl⟩
    · rintro ⟨_, rfl⟩; rfl
  | cons nk l ih =>
    intro acc r
    rw [List.foldlM_cons]
    cases hn : horizonOfNeighbor faces visible ptsOfVisible nk with
    | error e =>
      constructor
      · intro h
        exact Except.noConfusion h
      · rintro ⟨hall, _⟩
        obtain ⟨o, ho⟩ := hall nk (List.mem_cons_self nk l)
        rw [hn] at ho
        exact Except.noConfusion ho
    | ok o =>
      have hval := horizonOfNeighbor_ok_val hn
      cases o with
      | none =>
        have hfm : List.filterMap (ridgeOf faces visible ptsOfVisible) (nk :: l) =
            List.filterMap (ridgeOf faces visible ptsOfVisible) l := by
          rw [List.filterMap_cons, ← hval]
        constructor
        · intro h
          obtain ⟨hall, hr⟩ := (ih acc r).mp h
          refine ⟨?_, by rw [hfm]; exact hr⟩
          intro x hx
          rcases List.mem_cons.mp hx with hx | hx
          · subst hx; exact ⟨none, hn⟩
          · exact hall x hx
        · rintro ⟨hall, hr⟩
          exact (ih acc r).mpr ⟨fun x hx => hall x (List.mem_cons_of_mem _ hx),
            by rw [← hfm]; exact hr⟩
      | some entry =>
        have hfm : List.filterMap (ridgeOf faces visible ptsOfVisible) (nk :: l) =
            entry :: List.filterMap (ridgeOf faces visible ptsOfVisible) l := by
          rw [List.filterMap_cons, ← hval]
        constructor
        · intro h
          obtain ⟨hall, hr⟩ := (ih (acc ++ [entry]) r).mp h
          refine ⟨?_, ?_⟩
          · intro x hx
            rcases List.mem_cons.mp hx with hx | hx
            · subst hx; exact ⟨some entry, hn⟩
            · exact hall x hx
          · rw [hfm, List.append_cons]
            exact hr
        · rintro ⟨hall, hr⟩
          refine (ih (acc ++ [entry]) r).mpr
            ⟨fun x hx => hall x (List.mem_cons_of_mem _ hx), ?_⟩
          rw [hfm, List.append_cons] at hr
          exact hr

theorem horizonOfFace_ok_iff {faces : List (ℕ × Face)} {visible : List ℕ} {vk : ℕ}
    {r : List (List ℕ × ℕ)} :
    horizonOfFace faces visible vk = .ok r ↔
      ∃ vf, facesFind faces vk = some vf ∧ (dedupKeepFirst vf.indices).length = 3 ∧
        (∀ nk ∈ vf.neighborFaces,
          ∃ o, horizonOfNeighbor faces visible (dedupKeepFirst vf.indices) nk = .ok o) ∧
        r = vf.neighborFaces.filterMap (ridgeOf faces visible (dedupKeepFirst vf.indices)) := by
  constructor
  · intro h
    simp only [horizonOfFace] at h
    split at h
    · exact absurd h (by simp)
    · rename_i vf hf
      split at h
      · exact absurd h (by simp)
      · rename_i h3
        obtain ⟨hall, hr⟩ :=
          (horizonFold_ok faces visible (dedupKeepFirst vf.indices) vf.neighborFaces [] r).mp h
        rw [List.nil_append] at hr
        exact ⟨vf, hf, not_not.mp h3, hall, hr⟩
  · rintro ⟨vf, hf, h3, hall, hr⟩
    simp only [horizonOfFace, hf]
    rw [if_neg (not_not.mpr h3)]
    exact (horizonFold_ok faces visible (dedupKeepFirst vf.indices) vf.neighborFaces [] r).mpr
      ⟨hall, by rw [List.nil_append]; exact hr⟩

theorem computeHorizonFold_ok (faces : List (ℕ × Face)) (visible : List ℕ) :
    ∀ (l : List ℕ) (acc r : List (List ℕ × ℕ)),
    (l.foldlM (fun acc vk => do
      pure (acc ++ (← horizonOfFace faces visible vk))) acc = .ok r ↔
      ((∀ vk ∈ l, ∃ o, horizonOfFace faces visible vk = .ok o) ∧
        r = acc ++ l.flatMap (fun vk =>
          match facesFind faces vk with
          | none => []
          | some vf => vf.neighborFaces.filterMap
              (ridgeOf faces visible (dedupKeepFirst vf.indices))))) := by
  intro l
  induction l with
  | nil =>
    intro acc r
    simp only [List.foldlM_nil, List.flatMap_nil, List.append_nil]
    constructor
    · intro h
      cases h
      exact ⟨fun vk h => absurd h (List.not_mem_nil vk), rfl⟩
    · rintro ⟨_, rfl⟩; rfl
  | cons vk l ih =>
    intro acc r
    rw [List.foldlM_cons]
    cases ho : horizonOfFace faces visible vk with
    | error e =>
      constructor
      · intro h
        exact Except.noConfusion h
      · rintro ⟨hall, _⟩
        obtain ⟨o, hok⟩ := hall vk (List.mem_cons_self vk l)
        rw [ho] at hok
        exact Except.noConfusion hok
    | ok o =>
      obtain ⟨vf, hf, h3, hallN, hro⟩ := horizonOfFace_ok_iff.mp ho
      have hbody : (match facesFind faces vk with
          | none => ([] : List (List ℕ × ℕ))
          | some vf => vf.neighborFaces.filterMap
              (ridgeOf faces visible (dedupKeepFirst vf.indices))) = o := by
        rw [hf, hro]
      rw [List.flatMap_cons, hbody]
      constructor
      · intro h
        obtain ⟨hall, hr⟩ := (ih (acc ++ o) r).mp h
        refine ⟨?_, by rw [hr, List.append_assoc]⟩
        intro x hx
        rcases List.mem_cons.mp hx with hx | hx
        · subst hx; exact ⟨o, ho⟩
        · exact hall x hx
      · rintro ⟨hall, hr⟩
        refine (ih (acc ++ o) r).mpr
          ⟨fun x hx => hall x (List.mem_cons_of_mem _ hx), ?_⟩
        rw [hr, List.append_assoc]

theorem computeHorizon_ok_iff {visible : List ℕ} {faces : List (ℕ × Face)}
    {r : List (List ℕ × ℕ)} :
    computeHorizon visible faces = .ok r ↔
      ((∀ vk ∈ visible, ∃ o, horizonOfFace faces visible vk = .ok o) ∧
        3 ≤ (horizonSpecList visible faces).length ∧
        r = horizonSpecList visible faces) := by
  have hspec : horizonSpecList visible faces = visible.flatMap (fun vk =>
      match facesFind faces vk with
      | none => []
      | some vf => vf.neighborFaces.filterMap
          (ridgeOf faces visible (dedupKeepFirst vf.indices))) := rfl
  simp only [computeHorizon]
  constructor
  · intro h
    rcases bind_ok h with ⟨horizon, hfold, hcheck⟩
    obtain ⟨hall, hr⟩ := (computeHorizonFold_ok faces visible visible [] horizon).mp hfold
    rw [List.nil_append] at hr
    split at hcheck
    · exact absurd hcheck (by simp)
    · rename_i hlen
      cases hcheck
      refine ⟨hall, ?_, by rw [hspec, ← hr]⟩
      rw [hspec, ← hr]
      exact Nat.not_lt.mp hlen
  · rintro ⟨hall, hlen, hr⟩
    have hfold : (visible.foldlM (fun acc vk => do
        pure (acc ++ (← horizonOfFace faces visible vk))) [] : M _) =
        .ok (horizonSpecList visible faces) :=
      (computeHorizonFold_ok faces visible visible [] _).mpr
        ⟨hall, by rw [List.nil_append, hspec]⟩
    rw [hfold]
    have hnl : ¬ ((horizonSpecList visible faces).length < 3) := Nat.not_lt.mpr hlen
    calc ((.ok (horizonSpecList visible faces) : M _) >>= fun horizon =>
          if horizon.length < 3 then .error (.err (.roundOffError .horizonLen))
          else .ok horizon)
        = (if (horizonSpecList visible faces).length < 3 then
            .error (.err (.roundOffError .horizonLen))
          else .ok (horizonSpecList visible faces)) := rfl
      _ = .ok (horizonSpecList visible faces) := if_neg hnl
      _ = .ok r := by rw [hr]

theorem horizonChecks_iff {visible : List ℕ} {faces : List (ℕ × Face)} :
    horizonChecks visible faces = true ↔
      ∀ vk ∈ visible, ∃ o, horizonOfFace faces visible vk = .ok o := by
  rw [horizonChecks, List.all_eq_true]
  refine forall_congr' (fun vk => forall_congr' (fun hvk => ?_))
  cases hf : facesFind faces vk with
  | none =>
    constructor
    · intro h; exact absurd h (by simp)
    · rintro ⟨o, ho⟩
      simp only [horizonOfFace, hf] at ho
      exact absurd ho (by simp)
  | some vf =>
    rw [Bool.and_eq_true, List.all_eq_true]
    constructor
    · rintro ⟨h3, hall⟩
      refine ⟨vf.neighborFaces.filterMap (ridgeOf faces visible (dedupKeepFirst vf.indices)),
        horizonOfFace_ok_iff.mpr ⟨vf, hf, by simpa using h3, ?_, rfl⟩⟩
      intro nk hnk
      exact horizonOfNeighbor_ok_exists.mpr (hall nk hnk)
    · rintro ⟨o, ho⟩
      obtain ⟨vf2, hf2, h3, hallN, _⟩ := horizonOfFace_ok_iff.mp ho
      rw [hf] at hf2
      cases hf2
      refine ⟨by simpa using h3, ?_⟩
      intro nk hnk
      exact horizonOfNeighbor_ok_exists.mp (hallN nk hnk)

/-- When all horizon checks pass, every extracted ridge has exactly two
vertices and every paired key names an unvisible face. -/
theorem horizonChecks_ridge {visible : List ℕ} {faces : List (ℕ × Face)}
    (hc : horizonChecks visible faces = true) :
    ∀ e ∈ horizonSpecList visible faces, e.1.length = 2 ∧ e.2 ∉ visible := by
  intro e he
  rw [horizonSpecList, List.mem_flatMap] at he
  obtain ⟨vk, hvk, hment⟩ := he
  rw [horizonChecks, List.all_eq_true] at hc
  have hcv := hc vk hvk
  cases hf : facesFind faces vk with
  | none => rw [hf] at hment; exact absurd hment (List.not_mem_nil e)
  | some vf =>
    rw [hf] at hment hcv
    rw [Bool.and_eq_true, List.all_eq_true] at hcv
    rw [List.mem_filterMap] at hment
    obtain ⟨nk, hnk, hrg⟩ := hment
    have hcn := hcv.2 nk hnk
    rw [ridgeOf] at hrg
    by_cases hv : nk ∈ visible
    · rw [if_pos hv] at hrg; exact absurd hrg (by simp)
    · rw [if_neg hv] at hrg
      rw [Bool.or_eq_true, decide_eq_true_iff] at hcn
      rcases hcn with hcn | hcn
      · exact absurd hcn hv
      · cases hfu : facesFind faces nk with
        | none => rw [hfu] at hrg; exact absurd hrg (by simp)
        | some uf =>
          rw [hfu] at hrg hcn
          rw [Bool.and_eq_true, beq_iff_eq, beq_iff_eq] at hcn
          rw [Option.some.injEq] at hrg
          rw [← hrg]
          exact ⟨hcn.2, hv⟩

/-- C8: `compute_horizon` succeeds exactly when every visible face and every
unvisible neighbor passes its vertex-count check, every ridge has two
vertices, and at least three ridges are extracted; the successful value is,
for each visible face and each of its unvisible neighbors in order, the
shared two-vertex ridge paired with the unvisible neighbor key; and every
failure is a panic or a round-off error. -/
theorem C8_horizon (visible : List ℕ) (faces : List (ℕ × Face)) :
    (∀ r, computeHorizon visible faces = .ok r ↔
      (horizonChecks visible faces = true ∧
       3 ≤ (horizonSpecList visible faces).length ∧
       r = horizonSpecList visible faces)) ∧
    (∀ r, computeHorizon visible faces = .ok r →
      ∀ e ∈ r, e.1.length = 2 ∧ e.2 ∉ visible) ∧
    ((horizonChecks visible faces = false ∨ (horizonSpecList visible faces).length < 3) →
      ∃ e, computeHorizon visible faces = .error e) ∧
    (∀ e, computeHorizon visible faces = .error e → LoopFail e) := by
  have hiff : ∀ r, computeHorizon visible faces = .ok r ↔
      (horizonChecks visible faces = true ∧
       3 ≤ (horizonSpecList visible faces).length ∧
       r = horizonSpecList visible faces) := by
    intro r
    rw [computeHorizon_ok_iff, horizonChecks_iff]
  refine ⟨hiff, ?_, ?_, ?_⟩
  · intro r hok
    obtain ⟨hc, _, hr⟩ := (hiff r).mp hok
    rw [hr]
    exact horizonChecks_ridge hc
  · intro hbad
    cases hres : computeHorizon visible faces with
    | error e => exact ⟨e, rfl⟩
    | ok r =>
      obtain ⟨hc, hlen, _⟩ := (hiff r).mp hres
      rcases hbad with hbad | hbad
      · rw [hc] at hbad; exact absurd hbad (by simp)
      · exact absurd hlen (Nat.not_le.mpr hbad)
  · intro e he
    exact computeHorizon_error he

theorem C8_horizon_witness :
    computeHorizon [0] w4hull.faces = .ok (horizonSpecList [0] w4hull.faces) ∧
    horizonChecks [0] w4hull.faces = true ∧
    (horizonSpecList [0] w4hull.faces).length = 3 :=
  ⟨((C8_horizon [0] w4hull.faces).1 (horizonSpecList [0] w4hull.faces)).mpr
      ⟨by decide, by decide, rfl⟩,
   by decide, by decide⟩

theorem insertSortedNat_mem (a : ℕ) : ∀ (l : List ℕ) (x : ℕ),
    x ∈ insertSortedNat a l ↔ x = a ∨ x ∈ l := by
  intro l
  induction l with
  | nil => intro x; simp [insertSortedNat]
  | cons y ys ih =>
    intro x
    rw [insertSortedNat]
    by_cases hlt : a < y
    · rw [if_pos hlt]
      simp [List.mem_cons]
    · rw [if_neg hlt]
      by_cases heq : a = y
      · rw [if_pos heq]
        subst heq
        simp only [List.mem_cons]
        tauto
      · rw [if_neg heq]
        simp only [List.mem_cons, ih]
        tauto

theorem insertSortedNat_pairwise (a : ℕ) : ∀ {l : List ℕ},
    l.Pairwise (fun x y => x < y) → (insertSortedNat a l).Pairwise (fun x y => x < y) := by
  intro l
  induction l with
  | nil => intro _; simp [insertSortedNat]
  | cons y ys ih =>
    intro hl
    rw [List.pairwise_cons] at hl
    rw [insertSortedNat]
    by_cases hlt : a < y
    · rw [if_pos hlt, List.pairwise_cons]
      refine ⟨?_, List.pairwise_cons.mpr hl⟩
      intro z hz
      rcases List.mem_cons.mp hz with hz | hz
      · rw [hz]; exact hlt
      · exact lt_trans hlt (hl.1 z hz)
    · rw [if_neg hlt]
      by_cases heq : a = y
      · rw [if_pos heq, List.pairwise_cons]
        exact hl
      · rw [if_neg heq, List.pairwise_cons]
        have hya : y < a := lt_of_le_of_ne (Nat.not_lt.mp hlt) (fun hc => heq hc.symm)
        refine ⟨?_, ih hl.2⟩
        intro z hz
        rcases (insertSortedNat_mem a ys z).mp hz with hz | hz
        · rw [hz]; exact hya
        · exact hl.1 z hz

theorem foldlInsert_pairwise : ∀ (l acc : List ℕ),
    acc.Pairwise (fun x y => x < y) →
    (l.foldl (fun a i => insertSortedNat i a) acc).Pairwise (fun x y => x < y) := by
  intro l
  induction l with
  | nil => intro acc h; exact h
  | cons i t ih => intro acc h; exact ih _ (insertSortedNat_pairwise i h)

theorem foldlInsert_mem : ∀ (l acc : List ℕ) (x : ℕ),
    x ∈ l.foldl (fun a i => insertSortedNat i a) acc ↔ x ∈ acc ∨ x ∈ l := by
  intro l
  induction l with
  | nil => intro acc x; simp
  | cons i t ih =>
    intro acc x
    rw [List.foldl_cons, ih, insertSortedNat_mem]
    simp only [List.mem_cons]
    tauto

/-- The referenced-index set is strictly ascending. -/
theorem referencedIndices_pairwise (fs : List (ℕ × Face)) :
    (referencedIndices fs).Pairwise (fun x y => x < y) := by
  rw [referencedIndices]
  have h : ∀ (l : List (ℕ × Face)) (acc : List ℕ),
      acc.Pairwise (fun x y => x < y) →
      (l.foldl (fun acc p => p.2.indices.foldl (fun a i => insertSortedNat i a) acc)
        acc).Pairwise (fun x y => x < y) := by
    intro l
    induction l with
    | nil => intro acc hacc; exact hacc
    | cons p t ih => intro acc hacc; exact ih _ (foldlInsert_pairwise _ _ hacc)
  exact h fs [] (by simp)

/-- Membership in the referenced-index set. -/
theorem referencedIndices_mem (fs : List (ℕ × Face)) (x : ℕ) :
    x ∈ referencedIndices fs ↔ ∃ p ∈ fs, x ∈ p.2.indices := by
  rw [referencedIndices]
  have h : ∀ (l : List (ℕ × Face)) (acc : List ℕ),
      (x ∈ l.foldl (fun acc p => p.2.indices.foldl (fun a i => insertSortedNat i a) acc) acc ↔
        x ∈ acc ∨ ∃ p ∈ l, x ∈ p.2.indices) := by
    intro l
    induction l with
    | nil => intro acc; simp
    | cons p t ih =>
      intro acc
      rw [List.foldl_cons, ih, foldlInsert_mem]
      constructor
      · rintro ((h | h) | ⟨q, hq, hx⟩)
        · exact Or.inl h
        · exact Or.inr ⟨p, List.mem_cons_self p t, h⟩
        · exact Or.inr ⟨q, List.mem_cons_of_mem _ hq, hx⟩
      · rintro (h | ⟨q, hq, hx⟩)
        · exact Or.inl (Or.inl h)
        · rcases List.mem_cons.mp hq with hq | hq
          · subst hq; exact Or.inl (Or.inr hx)
          · exact Or.inr ⟨q, hq, hx⟩
  rw [h fs []]
  simp

theorem rankOf_lt_length : ∀ (sorted : List ℕ) (i : ℕ), i ∈ sorted →
    rankOf sorted i < sorted.length := by
  intro sorted
  induction sorted with
  | nil => intro i hi; exact absurd hi (List.not_mem_nil i)
  | cons y ys ih =>
    intro i hi
    rw [rankOf, List.findIdx?_cons]
    by_cases hy : (y == i) = true
    · rw [if_pos hy]
      simp
    · rw [if_neg hy]
      have hiy : i ∈ ys := by
        rcases List.mem_cons.mp hi with hc | hc
        · exfalso
          rw [hc] at hy
          simp at hy
        · exact hc
      have hr := ih i hiy
      rw [rankOf] at hr
      rw [List.findIdx?_succ]
      cases hf : List.findIdx? (fun j => j == i) ys 0 with
      | none => simp
      | some k =>
        rw [hf] at hr
        have hk : k < ys.length := hr
        show k + 1 < ys.length + 1
        omega

theorem foldlAppend_length : ∀ (fs : List (ℕ × Face)) (acc : List ℕ),
    (∀ p ∈ fs, p.2.indices.length = 3) →
    (fs.foldl (fun acc p => acc ++ p.2.indices) acc).length = acc.length + 3 * fs.length := by
  intro fs
  induction fs with
  | nil => intro acc _; simp
  | cons p t ih =>
    intro acc h3
    rw [List.foldl_cons, ih _ (fun q hq => h3 q (List.mem_cons_of_mem _ hq))]
    rw [List.length_append, h3 p (List.mem_cons_self p t), List.length_cons]
    ring

theorem foldlAppend_mem : ∀ (fs : List (ℕ × Face)) (acc : List ℕ) (x : ℕ),
    (x ∈ fs.foldl (fun acc p => acc ++ p.2.indices) acc ↔
      x ∈ acc ∨ ∃ p ∈ fs, x ∈ p.2.indices) := by
  intro fs
  induction fs with
  | nil => intro acc x; simp
  | cons p t ih =>
    intro acc x
    rw [List.foldl_cons, ih]
    rw [List.mem_append]
    constructor
    · rintro ((h | h) | ⟨q, hq, hx⟩)
      · exact Or.inl h
      · exact Or.inr ⟨p, List.mem_cons_self p t, h⟩
      · exact Or.inr ⟨q, List.mem_cons_of_mem _ hq, hx⟩
    · rintro (h | ⟨q, hq, hx⟩)
      · exact Or.inl (Or.inl h)
      · rcases List.mem_cons.mp hq with hq | hq
        · subst hq; exact Or.inl (Or.inr hx)
        · exact Or.inr ⟨q, hq, hx⟩

/-- C10: over a hull whose faces are triangles, `vertices_indices` after the
final compaction returns an index list of length exactly three times the
face count; the returned point array is exactly the referenced points in
strictly ascending order of their original indices; and every returned
index is a valid position in the returned point array. -/
theorem C10_vertices_indices (h : ConvexHull)
    (h3 : ∀ p ∈ h.faces, p.2.indices.length = 3) :
    ((verticesIndices (removeUnusedPoints h)).2.length =
        3 * (removeUnusedPoints h).faces.length) ∧
    ((verticesIndices (removeUnusedPoints h)).1 =
        (referencedIndices h.faces).map (getPt h.points)) ∧
    (referencedIndices h.faces).Pairwise (fun x y => x < y) ∧
    (∀ i, i ∈ referencedIndices h.faces ↔ ∃ p ∈ h.faces, i ∈ p.2.indices) ∧
    (∀ i ∈ (verticesIndices (removeUnusedPoints h)).2,
        i < (verticesIndices (removeUnusedPoints h)).1.length) := by
  have hfaces : (removeUnusedPoints h).faces = h.faces.map (fun p =>
      (p.1, { p.2 with indices := p.2.indices.map (rankOf (referencedIndices h.faces)) })) := rfl
  have h3' : ∀ p ∈ (removeUnusedPoints h).faces, p.2.indices.length = 3 := by
    intro p hp
    rw [hfaces, List.mem_map] at hp
    obtain ⟨q, hq, rfl⟩ := hp
    rw [List.length_map]
    exact h3 q hq
  refine ⟨?_, rfl, referencedIndices_pairwise h.faces,
    fun i => referencedIndices_mem h.faces i, ?_⟩
  · rw [verticesIndices]
    rw [foldlAppend_length _ [] h3']
    simp
  · intro i hi
    rw [verticesIndices] at hi
    rw [foldlAppend_mem] at hi
    rcases hi with hi | ⟨p, hp, hip⟩
    · exact absurd hi (List.not_mem_nil i)
    · rw [hfaces, List.mem_map] at hp
      obtain ⟨q, hq, rfl⟩ := hp
      rw [List.mem_map] at hip
      obtain ⟨j, hj, rfl⟩ := hip
      have hjr : j ∈ referencedIndices h.faces :=
        (referencedIndices_mem h.faces j).mpr ⟨q, hq, hj⟩
      have := rankOf_lt_length (referencedIndices h.faces) j hjr
      rw [verticesIndices]
      rw [show (removeUnusedPoints h).points =
        (referencedIndices h.faces).map (getPt h.points) from rfl]
      rw [List.length_map]
      exact this

theorem C10_vertices_indices_witness :
    (verticesIndices (removeUnusedPoints w4hull)).2.length =
      3 * (removeUnusedPoints w4hull).faces.length ∧
    (verticesIndices (removeUnusedPoints w4hull)).1 =
      (referencedIndices w4hull.faces).map (getPt w4hull.points) ∧
    (∀ i ∈ (verticesIndices (removeUnusedPoints w4hull)).2,
      i < (verticesIndices (removeUnusedPoints w4hull)).1.length) :=
  have t := C10_vertices_indices w4hull (by decide)
  ⟨t.1, t.2.1, t.2.2.2.2⟩

theorem foldlM_keep {α β : Type} {step : β → α → M β} {P : β → Prop} {Q : α → Prop}
    (hkeep : ∀ fs x fs2, Q x → step fs x = .ok fs2 → P fs → P fs2) :
    ∀ (l : List α) (fs fs' : β), (∀ z ∈ l, Q z) → l.foldlM step fs = .ok fs' →
      P fs → P fs' := by
  intro l
  induction l with
  | nil =>
    intro fs fs' _ h hP
    cases h
    exact hP
  | cons x t ih =>
    intro fs fs' hQ h hP
    rw [List.foldlM_cons] at h
    rcases bind_ok h with ⟨fs1, hx, hrest⟩
    exact ih fs1 fs' (fun z hz => hQ z (List.mem_cons_of_mem _ hz)) hrest
      (hkeep fs x fs1 (hQ x (List.mem_cons_self x t)) hx hP)

theorem foldlM_establish {α β : Type} {step : β → α → M β} {P : α → β → Prop}
    {R : α → α → Prop}
    (hstep : ∀ fs x fs2, step fs x = .ok fs2 → P x fs2)
    (hkeep : ∀ fs x fs2 y, R y x → step fs x = .ok fs2 → P y fs → P y fs2) :
    ∀ (l : List α) (fs fs' : β), l.Pairwise R → l.foldlM step fs = .ok fs' →
      ∀ y ∈ l, P y fs' := by
  intro l
  induction l with
  | nil => intro fs fs' _ _ y hy; exact absurd hy (List.not_mem_nil y)
  | cons x t ih =>
    intro fs fs' hpw h y hy
    rw [List.foldlM_cons] at h
    rcases bind_ok h with ⟨fs1, hx, hrest⟩
    rw [List.pairwise_cons] at hpw
    rcases List.mem_cons.mp hy with rfl | hyt
    · exact foldlM_keep (P := P y) (Q := fun z => R y z)
        (fun fs2 z fs3 hR hs hP => hkeep fs2 z fs3 y hR hs hP)
        t fs1 fs' hpw.1 hrest (hstep fs y fs1 hx)
    · exact ih fs1 fs' hpw.2 hrest y hyt

theorem facesFind_cons (a : ℕ) (f : Face) (t : List (ℕ × Face)) (k : ℕ) :
    facesFind ((a, f) :: t) k = if (a == k) = true then some f else facesFind t k := by
  rw [facesFind, List.find?_cons]
  cases h : (a == k) with
  | true => rw [if_pos rfl]; rfl
  | false => rw [if_neg (by simp)]; rfl

theorem facesFind_modify_ne (k k' : ℕ) (g : Face → Face) (hne : k' ≠ k) :
    ∀ fs : List (ℕ × Face), facesFind (facesModify fs k g) k' = facesFind fs k' := by
  intro fs
  induction fs with
  | nil => rfl
  | cons p t ih =>
    obtain ⟨a, f⟩ := p
    rw [facesModify, List.map_cons]
    by_cases hp : a = k
    · rw [if_pos (by simpa using hp)]
      rw [facesFind_cons, facesFind_cons]
      have hak : (a == k') = false := by
        simp only [beq_eq_false_iff_ne]
        intro hc
        exact hne (by rw [← hc, hp])
      rw [hak]
      simp only [Bool.false_eq_true, if_false]
      rw [← facesModify]
      exact ih
    · rw [if_neg (by simpa using hp)]
      rw [facesFind_cons, facesFind_cons]
      rw [← facesModify]
      cases hak : (a == k') with
      | true => simp
      | false => simpa using ih

theorem facesFind_erase_self (k : ℕ) : ∀ fs : List (ℕ × Face),
    facesFind (facesErase fs k) k = none := by
  intro fs
  induction fs with
  | nil => rfl
  | cons p t ih =>
    obtain ⟨a, f⟩ := p
    rw [facesErase, List.filter_cons]
    by_cases hp : a = k
    · rw [if_neg (by simp [hp])]
      rw [← facesErase]
      exact ih
    · rw [if_pos (by simpa using hp)]
      rw [facesFind_cons, ← facesErase]
      rw [if_neg (by simpa using hp)]
      exact ih

theorem linkFold_find {ka : ℕ} : ∀ (rest : List ℕ) (fs fs1 : List (ℕ × Face)),
    (rest.foldlM (fun (fs : List (ℕ × Face)) (kb : ℕ) =>
      (match facesFind fs ka, facesFind fs kb with
      | some fa, some fb =>
        if sharedIndexCount fa fb = 2 then
          pure (facesModify
            (facesModify fs ka (fun f => { f with neighborFaces := f.neighborFaces ++ [kb] }))
            kb (fun f => { f with neighborFaces := f.neighborFaces ++ [ka] }))
        else pure fs
      | _, _ => .error .panic : M (List (ℕ × Face)))) fs) = .ok fs1 →
    ∀ k, k ≠ ka → k ∉ rest → facesFind fs1 k = facesFind fs k := by
  intro rest
  induction rest with
  | nil =>
    intro fs fs1 h k _ _
    cases h
    rfl
  | cons kb t ih =>
    intro fs fs1 h k hka hkr
    rw [List.foldlM_cons] at h
    rcases bind_ok h with ⟨fs2, hstep, hrest⟩
    have hkb : k ≠ kb := fun hc => hkr (hc ▸ List.mem_cons_self kb t)
    have hkt : k ∉ t := fun hc => hkr (List.mem_cons_of_mem _ hc)
    have htail := ih fs2 fs1 hrest k hka hkt
    rw [htail]
    cases hfa : facesFind fs ka with
    | none =>
      rw [hfa] at hstep
      exact absurd hstep (by simp)
    | some fa =>
      cases hfb : facesFind fs kb with
      | none =>
        rw [hfa, hfb] at hstep
        exact absurd hstep (by simp)
      | some fb =>
        rw [hfa, hfb] at hstep
        have hstep2 : (if sharedIndexCount fa fb = 2 then
            (pure (facesModify
              (facesModify fs ka (fun f => { f with neighborFaces := f.neighborFaces ++ [kb] }))
              kb (fun f => { f with neighborFaces := f.neighborFaces ++ [ka] })) :
                M (List (ℕ × Face)))
          else pure fs) = .ok fs2 := hstep
        by_cases hs : sharedIndexCount fa fb = 2
        · rw [if_pos hs] at hstep2
          have hfs2 := Except.ok.inj hstep2
          rw [← hfs2]
          rw [facesFind_modify_ne kb k _ hkb, facesFind_modify_ne ka k _ hka]
        · rw [if_neg hs] at hstep2
          have hfs2 := Except.ok.inj hstep2
          rw [← hfs2]

theorem linkOneNewFace_ok {fs fs' : List (ℕ × Face)} {ka : ℕ} {rest : List ℕ}
    (h : linkOneNewFace fs ka rest = .ok fs') :
    (∃ fa, facesFind fs' ka = some fa ∧ fa.neighborFaces.length = 3) ∧
    (∀ k, k ≠ ka → k ∉ rest → facesFind fs' k = facesFind fs k) := by
  simp only [linkOneNewFace] at h
  rcases bind_ok h with ⟨fs1, hfold, hcheck⟩
  have hfind := linkFold_find rest fs fs1 hfold
  split at hcheck
  · exact absurd hcheck (by simp)
  · rename_i fa hfa
    split at hcheck
    · exact absurd hcheck (by simp)
    · rename_i h3
      cases hcheck
      exact ⟨⟨fa, hfa, not_not.mp h3⟩, hfind⟩

theorem linkNewFaces_three {fs fs' : List (ℕ × Face)} {newKeys : List ℕ}
    (hnd : newKeys.Nodup) (h : linkNewFaces fs newKeys = .ok fs') :
    ∀ k ∈ newKeys, ∃ f, facesFind fs' k = some f ∧ f.neighborFaces.length = 3 := by
  intro k hk
  rw [List.mem_iff_getElem] at hk
  obtain ⟨i, hi, hik⟩ := hk
  rw [linkNewFaces] at h
  have hpw : (List.range newKeys.length).Pairwise (fun a b => a < b ∧ b < newKeys.length) := by
    refine List.Pairwise.imp_of_mem ?_ (List.pairwise_lt_range newKeys.length)
    intro a b _ hb hab
    exact ⟨hab, List.mem_range.mp hb⟩
  have hP := foldlM_establish
    (P := fun i fs => ∃ f, facesFind fs (newKeys.getD i 0) = some f ∧
      f.neighborFaces.length = 3)
    (R := fun a b => a < b ∧ b < newKeys.length)
    (fun fs x fs2 hs => (linkOneNewFace_ok hs).1)
    (fun fs x fs2 y hR hs hP => by
      obtain ⟨f, hf, h3⟩ := hP
      refine ⟨f, ?_, h3⟩
      rw [(linkOneNewFace_ok hs).2 (newKeys.getD y 0) ?_ ?_]
      · exact hf
      · have hy : y < newKeys.length := lt_trans hR.1 hR.2
        rw [List.getD_eq_getElem _ _ hy, List.getD_eq_getElem _ _ hR.2]
        intro hc
        rw [hnd.getElem_inj_iff] at hc
        exact absurd hc (Nat.ne_of_lt hR.1)
      · intro hc
        have hy : y < newKeys.length := lt_trans hR.1 hR.2
        rw [List.mem_iff_getElem] at hc
        obtain ⟨m, hm, hmk⟩ := hc
        rw [List.getElem_drop] at hmk
        rw [List.getD_eq_getElem _ _ hy] at hmk
        have hxm : x + 1 + m < newKeys.length := by
          have := hm
          rw [List.length_drop] at this
          omega
        rw [hnd.getElem_inj_iff] at hmk
        omega)
    (List.range newKeys.length) fs fs' hpw h
  have h2 : ∃ f, facesFind fs' (newKeys.getD i 0) = some f ∧
      f.neighborFaces.length = 3 := hP i (List.mem_range.mpr hi)
  rw [List.getD_eq_getElem _ _ hi, hik] at h2
  exact h2

theorem deleteVisibleFace_erases {fs fs' : List (ℕ × Face)} {vk : ℕ}
    (h : deleteVisibleFace fs vk = .ok fs') : facesFind fs' vk = none := by
  simp only [deleteVisibleFace] at h
  split at h
  · exact absurd h (by simp)
  · rcases bind_ok h with ⟨fs2, _, hok⟩
    cases hok
    exact facesFind_erase_self vk fs2

theorem findIdx_some_spec : ∀ (l : List ℕ) (vk ix : ℕ),
    l.findIdx? (fun k => k == vk) = some ix →
    ∃ h : ix < l.length, l[ix] = vk := by
  intro l
  induction l with
  | nil => intro vk ix h; exact absurd h (by simp)
  | cons y ys ih =>
    intro vk ix h
    rw [List.findIdx?_cons] at h
    by_cases hy : (y == vk) = true
    · rw [if_pos hy] at h
      cases h
      exact ⟨by simp, by simpa using hy⟩
    · rw [if_neg hy, List.findIdx?_succ, Option.map_eq_some'] at h
      obtain ⟨j, hj, hx⟩ := h
      obtain ⟨hlt, hget⟩ := ih vk j hj
      subst hx
      exact ⟨by simpa using Nat.succ_lt_succ hlt, by simpa using hget⟩

theorem perm_getElem_cons_eraseIdx : ∀ (l : List ℕ) (i : ℕ) (h : i < l.length),
    l.Perm (l[i] :: l.eraseIdx i) := by
  intro l
  induction l with
  | nil => intro i h; exact absurd h (by simp)
  | cons a t ih =>
    intro i h
    cases i with
    | zero => exact List.Perm.refl _
    | succ i =>
      have hlt : i < t.length := by simpa using h
      have hg : (a :: t)[i + 1] = t[i] := by simp
      rw [hg]
      exact ((ih i hlt).cons a).trans (List.Perm.swap _ _ _)

theorem swapRemove_cons_succ (a : ℕ) (t : List ℕ) (i : ℕ) (ht : t ≠ []) :
    swapRemove (a :: t) (i + 1) = a :: swapRemove t i := by
  rw [swapRemove, swapRemove]
  have h1 : (a :: t).set (i + 1) ((a :: t).getD ((a :: t).length - 1) 0) =
      a :: t.set i (t.getD (t.length - 1) 0) := by
    cases t with
    | nil => exact absurd rfl ht
    | cons b t2 => rfl
  rw [h1]
  exact List.dropLast_cons_of_ne_nil
    (List.ne_nil_of_length_pos (by rw [List.length_set]; exact List.length_pos.mpr ht))

theorem swapRemove_zero (a b : ℕ) (t2 : List ℕ) :
    swapRemove (a :: b :: t2) 0 = (b :: t2).getLast (by simp) :: (b :: t2).dropLast := by
  rw [swapRemove]
  have hx : (a :: b :: t2).getD ((a :: b :: t2).length - 1) 0 =
      (b :: t2).getD ((b :: t2).length - 1) 0 := rfl
  have hlt : (b :: t2).length - 1 < (b :: t2).length := by simp
  have hy : (b :: t2).getD ((b :: t2).length - 1) 0 = (b :: t2).getLast (by simp) := by
    rw [List.getD_eq_getElem _ _ hlt, List.getLast_eq_getElem]
  have hset : (a :: b :: t2).set 0 ((a :: b :: t2).getD ((a :: b :: t2).length - 1) 0) =
      ((b :: t2).getLast (by simp)) :: b :: t2 := by
    rw [hx, hy]
    exact List.set_cons_zero _ _ _
  rw [hset]
  exact List.dropLast_cons_of_ne_nil (by simp)

theorem swapRemove_perm : ∀ (l : List ℕ) (i : ℕ), i < l.length →
    (swapRemove l i).Perm (l.eraseIdx i) := by
  intro l
  induction l with
  | nil => intro i h; exact absurd h (by simp)
  | cons a t ih =>
    intro i h
    cases i with
    | zero =>
      cases t with
      | nil => exact List.Perm.refl _
      | cons b t2 =>
        rw [swapRemove_zero a b t2]
        have hx := (List.perm_append_singleton ((b :: t2).getLast (by simp))
          ((b :: t2).dropLast)).symm
        rw [List.dropLast_append_getLast (by simp)] at hx
        exact hx
    | succ i =>
      have hlt : i < t.length := by simpa using h
      have ht : t ≠ [] := List.ne_nil_of_length_pos (Nat.lt_of_le_of_lt (Nat.zero_le i) hlt)
      rw [swapRemove_cons_succ a t i ht]
      exact (ih i hlt).cons a

/-- The swap-remove deletion at the index found for the deleted key removes
exactly one adjacency entry: one occurrence of the key, nothing else. -/
theorem swapRemove_removes_one (l : List ℕ) (vk ix : ℕ)
    (hfind : l.findIdx? (fun k => k == vk) = some ix) :
    (swapRemove l ix).length + 1 = l.length ∧
    (swapRemove l ix).count vk + 1 = l.count vk ∧
    ∀ k, k ≠ vk → (swapRemove l ix).count k = l.count k := by
  obtain ⟨hlt, hget⟩ := findIdx_some_spec l vk ix hfind
  have hp1 := swapRemove_perm l ix hlt
  have hp2 := perm_getElem_cons_eraseIdx l ix hlt
  rw [hget] at hp2
  refine ⟨?_, ?_, ?_⟩
  · rw [hp1.length_eq, hp2.length_eq, List.length_cons]
  · rw [hp1.count_eq, hp2.count_eq, List.count_cons_self]
  · intro k hk
    rw [hp1.count_eq _, hp2.count_eq _, List.count_cons_of_ne hk]

theorem initTetrahedron_ok_faces {points : List Vec3} {c : ConvexHull}
    (h : initTetrahedron points = .ok c) :
    ∃ (f0 f1 f2 f3 : Face), c.faces =
      [(0, { f0 with neighborFaces := [1, 2, 3] }),
       (1, { f1 with neighborFaces := [0, 2, 3] }),
       (2, { f2 with neighborFaces := [0, 1, 3] }),
       (3, { f3 with neighborFaces := [0, 1, 2] })] := by
  simp only [initTetrahedron] at h
  rcases bind_ok h with ⟨quad, _, h⟩
  obtain ⟨i0, i1, i2, i3⟩ := quad
  rcases bind_ok h with ⟨f0, _, h⟩
  rcases bind_ok h with ⟨f1, _, h⟩
  rcases bind_ok h with ⟨f2, _, h⟩
  rcases bind_ok h with ⟨f3, _, h⟩
  cases h
  exact ⟨f0, f1, f2, f3, rfl⟩

/-- C4, amended theorem: the initial simplex is closed — every face of a
successful `init_tetrahedron` has exactly three neighbors and the neighbor
relation is symmetric; a successful fan-face linking pass leaves every new
face (under distinct keys) with exactly three neighbors, enforced by the
explicit per-face check; deleting a visible face erases its key from the
face map; and the swap-remove of the adjacency entry found for the deleted
key removes exactly one occurrence of that key from the neighbor list and
no other entry.  (The global two-faces-per-edge manifold property can still
fail on a reachable hull, per the counterexample.) -/
theorem C4_amended :
    (∀ (points : List Vec3) (c : ConvexHull), initTetrahedron points = .ok c →
      (∀ p ∈ c.faces, p.2.neighborFaces.length = 3) ∧
      (∀ p ∈ c.faces, ∀ q ∈ c.faces, (p.1 ∈ q.2.neighborFaces ↔ q.1 ∈ p.2.neighborFaces))) ∧
    (∀ (fs fs' : List (ℕ × Face)) (newKeys : List ℕ), newKeys.Nodup →
      linkNewFaces fs newKeys = .ok fs' →
      ∀ k ∈ newKeys, ∃ f, facesFind fs' k = some f ∧ f.neighborFaces.length = 3) ∧
    (∀ (fs fs' : List (ℕ × Face)) (vk : ℕ), deleteVisibleFace fs vk = .ok fs' →
      facesFind fs' vk = none) ∧
    (∀ (l : List ℕ) (vk ix : ℕ), l.findIdx? (fun k => k == vk) = some ix →
      (swapRemove l ix).length + 1 = l.length ∧
      (swapRemove l ix).count vk + 1 = l.count vk ∧
      ∀ k, k ≠ vk → (swapRemove l ix).count k = l.count k) := by
  refine ⟨?_, ?_, ?_, ?_⟩
  · intro points c h
    obtain ⟨f0, f1, f2, f3, hf⟩ := initTetrahedron_ok_faces h
    have hmem : ∀ r ∈ c.faces,
        r = (0, { f0 with neighborFaces := [1, 2, 3] }) ∨
        r = (1, { f1 with neighborFaces := [0, 2, 3] }) ∨
        r = (2, { f2 with neighborFaces := [0, 1, 3] }) ∨
        r = (3, { f3 with neighborFaces := [0, 1, 2] }) := by
      rw [hf]
      intro r hr
      simpa using hr
    constructor
    · intro p hp
      rcases hmem p hp with rfl | rfl | rfl | rfl <;> rfl
    · intro p hp q hq
      rcases hmem p hp with rfl | rfl | rfl | rfl <;>
        rcases hmem q hq with rfl | rfl | rfl | rfl <;> simp
  · intro fs fs' newKeys hnd h
    exact linkNewFaces_three hnd h
  · intro fs fs' vk h
    exact deleteVisibleFace_erases h
  · intro l vk ix h
    exact swapRemove_removes_one l vk ix h

theorem C4_amended_witness :
    (∀ p ∈ w4hull.faces, p.2.neighborFaces.length = 3) ∧
    (swapRemove [7, 5, 9] 1).length + 1 = ([7, 5, 9] : List ℕ).length ∧
    (swapRemove [7, 5, 9] 1).count 5 + 1 = ([7, 5, 9] : List ℕ).count 5 :=
  have t := C4_amended
  have h1 := (t.1 w4pts w4hull (by decide)).1
  have h4 := t.2.2.2 [7, 5, 9] 5 1 (by decide)
  ⟨h1, h4.1, h4.2.1⟩

